import Mathlib

/-!
Formal model of the `maildir-dedup` repository (files `maildedup.py` and
`maildir-dedup.py`): an indexed Maildir store whose table of contents (TOC)
is kept eagerly consistent by overridden `add` / `remove` / `__setitem__`
methods, and a deduplication engine `maildir_dedup` that groups messages by
the `X-GMAIL-MSGID` header, verifies duplication by hashing the message with
two provenance headers stripped, merges provenance headers onto the earliest
message, and deletes the other copies.

The embedding is shallow: the filesystem is a finite map from message paths
to stored messages, the TOC a finite map from keys to paths, and the SHA-512
digest of the serialized stripped message is modelled injectively by the
pair (stripped header list, body) — `_dump_message` writes exactly the
header fields and the body, and the timestamp is carried by the file mtime,
not the serialized bytes.
-/

/-- Association-list lookup of the first entry with the given key
(Python `dict` access). -/
def assoc {α β : Type} [DecidableEq α] : List (α × β) → α → Option β
  | [], _ => none
  | e :: r, a => if e.1 = a then some e.2 else assoc r a

/-- Association-list update: replace the first entry with the given key,
or append a fresh entry at the end (Python `dict` assignment). -/
def setA {α β : Type} [DecidableEq α] : List (α × β) → α → β → List (α × β)
  | [], a, b => [(a, b)]
  | e :: r, a, b => if e.1 = a then (a, b) :: r else e :: setA r a b

/-- Association-list deletion of every entry with the given key
(Python `del` on a `dict`; on a list without duplicate keys this is
deletion of the single entry). -/
def eraseA {α β : Type} [DecidableEq α] : List (α × β) → α → List (α × β)
  | [], _ => []
  | e :: r, a => if e.1 = a then eraseA r a else e :: eraseA r a

@[simp] theorem assoc_nil {α β : Type} [DecidableEq α] (a : α) :
    assoc ([] : List (α × β)) a = none := rfl

@[simp] theorem assoc_cons {α β : Type} [DecidableEq α]
    (e : α × β) (r : List (α × β)) (a : α) :
    assoc (e :: r) a = if e.1 = a then some e.2 else assoc r a := rfl

@[simp] theorem setA_nil {α β : Type} [DecidableEq α] (a : α) (b : β) :
    setA ([] : List (α × β)) a b = [(a, b)] := rfl

@[simp] theorem setA_cons {α β : Type} [DecidableEq α]
    (e : α × β) (r : List (α × β)) (a : α) (b : β) :
    setA (e :: r) a b = if e.1 = a then (a, b) :: r else e :: setA r a b := rfl

@[simp] theorem eraseA_nil {α β : Type} [DecidableEq α] (a : α) :
    eraseA ([] : List (α × β)) a = [] := rfl

@[simp] theorem eraseA_cons {α β : Type} [DecidableEq α]
    (e : α × β) (r : List (α × β)) (a : α) :
    eraseA (e :: r) a = if e.1 = a then eraseA r a else e :: eraseA r a := rfl

theorem assoc_setA_self {α β : Type} [DecidableEq α]
    (l : List (α × β)) (a : α) (b : β) : assoc (setA l a b) a = some b := by
  induction l with
  | nil => simp [assoc, setA]
  | cons e r ih =>
      by_cases h : e.1 = a <;> simp [assoc, setA, h, ih]

theorem assoc_setA_ne {α β : Type} [DecidableEq α]
    (l : List (α × β)) (a a' : α) (b : β) (h : a ≠ a') :
    assoc (setA l a b) a' = assoc l a' := by
  induction l with
  | nil => simp [assoc, setA, h]
  | cons e r ih =>
      by_cases he : e.1 = a
      · subst he; simp [assoc, setA, h]
      · simp only [setA_cons, if_neg he, assoc_cons, ih]

theorem assoc_eraseA_self {α β : Type} [DecidableEq α]
    (l : List (α × β)) (a : α) : assoc (eraseA l a) a = none := by
  induction l with
  | nil => simp
  | cons e r ih =>
      by_cases h : e.1 = a <;> simp [h, ih]

theorem assoc_eraseA_ne {α β : Type} [DecidableEq α]
    (l : List (α × β)) (a a' : α) (h : a ≠ a') :
    assoc (eraseA l a) a' = assoc l a' := by
  induction l with
  | nil => simp
  | cons e r ih =>
      by_cases he : e.1 = a
      · subst he; simp [h, ih]
      · simp only [eraseA_cons, if_neg he, assoc_cons, ih]

theorem setA_of_assoc_none {α β : Type} [DecidableEq α]
    (l : List (α × β)) (a : α) (b : β) (h : assoc l a = none) :
    setA l a b = l ++ [(a, b)] := by
  induction l with
  | nil => simp
  | cons e r ih =>
      by_cases he : e.1 = a
      · simp [assoc, he] at h
      · simp only [assoc_cons, if_neg he] at h
        simp [setA, he, ih h]

theorem eraseA_of_not_mem_keys {α β : Type} [DecidableEq α]
    (l : List (α × β)) (a : α) (h : a ∉ l.map Prod.fst) :
    eraseA l a = l := by
  induction l with
  | nil => rfl
  | cons e r ih =>
      simp only [List.map_cons, List.mem_cons] at h
      push_neg at h
      simp [Ne.symm h.1, ih h.2]

theorem assoc_eq_none_of_not_mem_keys {α β : Type} [DecidableEq α]
    (l : List (α × β)) (a : α) (h : a ∉ l.map Prod.fst) :
    assoc l a = none := by
  induction l with
  | nil => rfl
  | cons e r ih =>
      simp only [List.map_cons, List.mem_cons] at h
      push_neg at h
      simp [Ne.symm h.1, ih h.2]

theorem mem_keys_of_assoc_some {α β : Type} [DecidableEq α]
    {l : List (α × β)} {a : α} {b : β} (h : assoc l a = some b) :
    a ∈ l.map Prod.fst := by
  induction l with
  | nil => simp [assoc] at h
  | cons e r ih =>
      by_cases he : e.1 = a
      · subst he; simp
      · simp only [assoc_cons, if_neg he] at h
        simp [ih h]

theorem mem_of_assoc_some {α β : Type} [DecidableEq α]
    {l : List (α × β)} {a : α} {b : β} (h : assoc l a = some b) :
    (a, b) ∈ l := by
  induction l with
  | nil => simp [assoc] at h
  | cons e r ih =>
      by_cases he : e.1 = a
      · simp only [assoc_cons, if_pos he] at h
        obtain ⟨x, y⟩ := e
        cases he
        cases h
        exact List.mem_cons_self _ _
      · simp only [assoc_cons, if_neg he] at h
        exact List.mem_cons_of_mem _ (ih h)

theorem assoc_some_of_mem_nodup {α β : Type} [DecidableEq α]
    {l : List (α × β)} {a : α} {b : β}
    (hnd : (l.map Prod.fst).Nodup) (h : (a, b) ∈ l) :
    assoc l a = some b := by
  induction l with
  | nil => simp at h
  | cons e r ih =>
      simp only [List.map_cons, List.nodup_cons] at hnd
      rcases List.mem_cons.mp h with h1 | h2
      · subst h1; simp [assoc]
      · have hne : e.1 ≠ a := by
          intro he
          exact hnd.1 (he ▸ (List.mem_map.mpr ⟨(a, b), h2, rfl⟩))
        simp [assoc, hne, ih hnd.2 h2]

theorem keys_setA_of_mem {α β : Type} [DecidableEq α]
    (l : List (α × β)) (a : α) (b : β) (h : a ∈ l.map Prod.fst) :
    (setA l a b).map Prod.fst = l.map Prod.fst := by
  induction l with
  | nil => simp at h
  | cons e r ih =>
      by_cases he : e.1 = a
      · simp [setA, he]
      · simp only [List.map_cons, List.mem_cons] at h
        rcases h with h1 | h2
        · exact absurd h1.symm he
        · simp [setA, he, ih h2]

theorem keys_eraseA_sublist {α β : Type} [DecidableEq α]
    (l : List (α × β)) (a : α) :
    ((eraseA l a).map Prod.fst).Sublist (l.map Prod.fst) := by
  induction l with
  | nil => simp
  | cons e r ih =>
      by_cases he : e.1 = a
      · simp only [eraseA_cons, if_pos he]
        exact ih.trans (List.sublist_cons_self _ _)
      · simp only [eraseA_cons, if_neg he, List.map_cons]
        exact ih.cons₂ _

theorem eraseA_sublist {α β : Type} [DecidableEq α]
    (l : List (α × β)) (a : α) : (eraseA l a).Sublist l := by
  induction l with
  | nil => simp
  | cons e r ih =>
      by_cases he : e.1 = a
      · simp only [eraseA_cons, if_pos he]
        exact ih.trans (List.sublist_cons_self _ _)
      · simp only [eraseA_cons, if_neg he]
        exact ih.cons₂ _

/-! ## The indexed Maildir store (`maildedup.Maildir`)

A message file lives at `subdir/(key + suffix)` inside the mailbox directory;
the path is modelled structurally so that the directory scan performed by
`mailbox.Maildir._refresh` (which recovers the key as the file name up to the
colon) is the projection `MsgPath.key`. -/

/-- The relative path `subdir/(name + suffix)` of one message file.
The `key` is the unique file name, the `suffix` the optional `:info` part. -/
structure MsgPath where
  subdir : String
  key : Nat
  suffix : String
deriving DecidableEq, Repr

/-- A `mailbox.MaildirMessage`: ordered header fields, opaque body, the
delivery timestamp (`get_date`/`set_date`, stored as the file mtime), and the
Maildir placement attributes `get_subdir` and `get_info`. -/
structure MaildirMessage where
  headers : List (String × String)
  body : String
  date : Int
  subdir : String
  info : String
deriving DecidableEq, Repr

/-- `suffix = self.colon + message.get_info(); if suffix == self.colon:
suffix = ''` in `mailbox.Maildir.add`. -/
def msgSuffix (m : MaildirMessage) : String :=
  if m.info = "" then "" else ":" ++ m.info

/-- State of a `maildedup.Maildir`: the message files on disk, the `_toc`
key-to-path mapping, and a counter generating the unique file names that
`mailbox.Maildir.add` assigns. -/
structure MaildirState where
  files : List (MsgPath × MaildirMessage)
  toc : List (Nat × MsgPath)
  next : Nat
deriving DecidableEq, Repr

/-- `mailbox.Maildir.add` (the stdlib base method): write the message to a
fresh unique file name in the message's subdirectory, with the flags suffix
and the message's date as mtime; it does NOT touch `_toc`. Returns the key. -/
def baseAdd (st : MaildirState) (m : MaildirMessage) : Nat × MaildirState :=
  let key := st.next
  let p : MsgPath := ⟨m.subdir, key, msgSuffix m⟩
  (key, { st with files := setA st.files p m, next := key + 1 })

/-- `mailbox.Maildir._refresh`: rebuild the table of contents from a fresh
directory scan — each file named `key + suffix` under `subdir` yields the
entry `key -> subdir/(key + suffix)`. -/
def refreshToc (fs : List (MsgPath × MaildirMessage)) : List (Nat × MsgPath) :=
  fs.map (fun e => (e.1.key, e.1))

/-- `maildedup.Maildir.add`: call the base `add`, then insert the key into
the table of contents, guarded exactly as the source is — only if the key is
not in `_toc` and a file exists at the destination path computed from the
message's subdir and info. -/
def maildirAdd (st : MaildirState) (m : MaildirMessage) : Nat × MaildirState :=
  let (key, st1) := baseAdd st m
  if (assoc st1.toc key).isSome then (key, st1)
  else
    let dest : MsgPath := ⟨m.subdir, key, msgSuffix m⟩
    if (assoc st1.files dest).isSome then
      (key, { st1 with toc := setA st1.toc key dest })
    else (key, st1)

/-- `mailbox.Maildir._lookup`: if the key is in `_toc` and its file exists,
return the path; otherwise `_refresh` (rebuilding `_toc` from a directory
scan) and retry, returning `none` for the `KeyError` case. The possibly
refreshed state is returned alongside. -/
def lookupKey (st : MaildirState) (k : Nat) : Option MsgPath × MaildirState :=
  match assoc st.toc k with
  | some p =>
      if (assoc st.files p).isSome then (some p, st)
      else
        let t := refreshToc st.files
        (assoc t k, { st with toc := t })
  | none =>
      let t := refreshToc st.files
      (assoc t k, { st with toc := t })

/-- `maildedup.Maildir.remove`: `super().remove(key)` (which is
`os.remove(self._lookup(key))`, raising `KeyError` when the lookup fails),
then `del self._toc[key]` with a raised `KeyError` swallowed. The Bool is
`false` exactly when the operation raises; the state is the one observable
after the call (after the exception, for a failed lookup, the refresh it
performed has still happened). -/
def maildirRemove (st : MaildirState) (k : Nat) : Bool × MaildirState :=
  match lookupKey st k with
  | (none, st1) => (false, st1)
  | (some p, st1) =>
      (true, { st1 with files := eraseA st1.files p, toc := eraseA st1.toc k })

/-- `maildedup.Maildir.__setitem__`: look up the destination path of `key`,
add the new message under a temporary key, look up the temporary path, and
`os.rename` the temporary file onto the destination. `renameOk` selects
whether the rename succeeds or raises; on failure the temporary key is
removed before the error propagates. On success the temporary TOC entry is
deleted (`KeyError` swallowed). The Bool is `false` exactly when the
operation raises. -/
def maildirSetitem (st : MaildirState) (k : Nat) (m : MaildirMessage)
    (renameOk : Bool) : Bool × MaildirState :=
  match lookupKey st k with
  | (none, st1) => (false, st1)
  | (some dest, st1) =>
    let (tempKey, st2) := maildirAdd st1 m
    match lookupKey st2 tempKey with
    | (none, st3) => (false, st3)
    | (some tempPath, st3) =>
      if renameOk then
        match assoc st3.files tempPath with
        | none => (false, st3)
        | some c =>
          let st4 := { st3 with files := setA (eraseA st3.files tempPath) dest c }
          (true, { st4 with toc := eraseA st4.toc tempKey })
      else
        (false, (maildirRemove st3 tempKey).2)

/-- One mutation of the store, as issued by a caller: `add`, `remove`,
`replace` (`__setitem__` with the atomic rename succeeding), or a `replace`
whose atomic rename fails. -/
inductive MOp where
  | madd (m : MaildirMessage)
  | mremove (k : Nat)
  | mreplace (k : Nat) (m : MaildirMessage)
  | mreplaceFail (k : Nat) (m : MaildirMessage)

/-- Execute one operation, keeping the state the operation leaves behind
(also when it raises). -/
def execOp (st : MaildirState) : MOp → MaildirState
  | .madd m => (maildirAdd st m).2
  | .mremove k => (maildirRemove st k).2
  | .mreplace k m => (maildirSetitem st k m true).2
  | .mreplaceFail k m => (maildirSetitem st k m false).2

/-- Execute a sequence of store operations. -/
def execOps (st : MaildirState) (ops : List MOp) : MaildirState :=
  ops.foldl execOp st

/-- Every stored file's name (its key) is distinct — the uniqueness contract
of Maildir file name generation. -/
def filesKeyNodup (fs : List (MsgPath × MaildirMessage)) : Prop :=
  (fs.map (fun e => e.1.key)).Nodup

/-- All file keys were produced by the store's counter. -/
def keysBelow (st : MaildirState) : Prop :=
  ∀ e ∈ st.files, e.1.key < st.next

/-- All table-of-contents keys were produced by the store's counter. -/
def tocBelow (st : MaildirState) : Prop :=
  ∀ e ∈ st.toc, e.1 < st.next

/-- The table of contents agrees, as a map, with a fresh directory scan. -/
def tocMatches (st : MaildirState) : Prop :=
  ∀ k, assoc st.toc k = assoc (refreshToc st.files) k

/-- The store's consistency invariant. -/
def StoreInv (st : MaildirState) : Prop :=
  filesKeyNodup st.files ∧ keysBelow st ∧ tocBelow st ∧ tocMatches st

/-! ### Store lemmas -/

theorem assoc_append {α β : Type} [DecidableEq α]
    (l1 l2 : List (α × β)) (a : α) :
    assoc (l1 ++ l2) a =
      match assoc l1 a with
      | some b => some b
      | none => assoc l2 a := by
  induction l1 with
  | nil => simp [assoc]
  | cons e r ih =>
      by_cases he : e.1 = a <;> simp [assoc, he, ih]

theorem eraseA_append {α β : Type} [DecidableEq α]
    (l1 l2 : List (α × β)) (a : α) :
    eraseA (l1 ++ l2) a = eraseA l1 a ++ eraseA l2 a := by
  induction l1 with
  | nil => simp
  | cons e r ih =>
      by_cases he : e.1 = a <;> simp [he, ih]

theorem assoc_isSome_of_mem_keys {α β : Type} [DecidableEq α]
    {l : List (α × β)} {a : α} (h : a ∈ l.map Prod.fst) :
    (assoc l a).isSome := by
  induction l with
  | nil => simp at h
  | cons e r ih =>
      by_cases he : e.1 = a
      · simp [he]
      · simp only [List.map_cons, List.mem_cons] at h
        rcases h with h1 | h2
        · exact absurd h1.symm he
        · simp [he, ih h2]

theorem mem_setA {α β : Type} [DecidableEq α]
    {l : List (α × β)} {a : α} {b : β} {e : α × β} (h : e ∈ setA l a b) :
    e ∈ l ∨ e = (a, b) := by
  induction l with
  | nil => simp [setA] at h; right; exact h
  | cons x r ih =>
      by_cases hx : x.1 = a
      · simp only [setA_cons, if_pos hx, List.mem_cons] at h
        rcases h with h1 | h2
        · right; exact h1
        · left; exact List.mem_cons_of_mem _ h2
      · simp only [setA_cons, if_neg hx, List.mem_cons] at h
        rcases h with h1 | h2
        · left; exact h1 ▸ List.mem_cons_self _ _
        · rcases ih h2 with h3 | h4
          · left; exact List.mem_cons_of_mem _ h3
          · right; exact h4

theorem refreshToc_assoc_some {fs : List (MsgPath × MaildirMessage)}
    {k : Nat} {p : MsgPath} (h : assoc (refreshToc fs) k = some p) :
    p.key = k ∧ p ∈ fs.map Prod.fst := by
  induction fs with
  | nil => simp [refreshToc, assoc] at h
  | cons e r ih =>
      by_cases he : e.1.key = k
      · simp only [refreshToc, List.map_cons, assoc_cons, if_pos he] at h
        cases h
        exact ⟨he, by simp⟩
      · simp only [refreshToc, List.map_cons, assoc_cons, if_neg he] at h
        have := ih h
        exact ⟨this.1, by simp [this.2]⟩

/-- In a store whose file keys are all below `st.next`, the path a fresh key
would use is absent from the directory. -/
theorem fresh_path_not_mem {st : MaildirState} (hb : keysBelow st)
    (p : MsgPath) (hk : st.next ≤ p.key) : p ∉ st.files.map Prod.fst := by
  intro hmem
  rcases List.mem_map.mp hmem with ⟨e, he, hep⟩
  have h1 := hb e he
  have h2 : e.1.key = p.key := by rw [hep]
  omega

theorem refreshToc_keys (fs : List (MsgPath × MaildirMessage)) :
    (refreshToc fs).map Prod.fst = fs.map (fun e => e.1.key) := by
  simp [refreshToc]

theorem assoc_refreshToc_fresh {st : MaildirState} (hb : keysBelow st)
    {k : Nat} (hk : st.next ≤ k) : assoc (refreshToc st.files) k = none := by
  apply assoc_eq_none_of_not_mem_keys
  rw [refreshToc_keys]
  intro hmem
  rcases List.mem_map.mp hmem with ⟨e, he, hek⟩
  have := hb e he
  omega

/-- Replacing the content of an existing file does not change the directory
scan (same paths, same keys). -/
theorem refreshToc_setA_mem (fs : List (MsgPath × MaildirMessage))
    (p : MsgPath) (c : MaildirMessage) (h : p ∈ fs.map Prod.fst) :
    refreshToc (setA fs p c) = refreshToc fs := by
  induction fs with
  | nil => simp at h
  | cons e r ih =>
      by_cases he : e.1 = p
      · simp [refreshToc, setA, he]
      · simp only [List.map_cons, List.mem_cons] at h
        rcases h with h1 | h2
        · exact absurd h1.symm he
        · simp only [setA_cons, if_neg he, refreshToc, List.map_cons]
          have hr := ih h2
          simp only [refreshToc] at hr
          rw [hr]

theorem key_mem_of_path_mem {l : List (MsgPath × MaildirMessage)}
    {p : MsgPath} (h : p ∈ l.map Prod.fst) :
    p.key ∈ l.map (fun e => e.1.key) := by
  rcases List.mem_map.mp h with ⟨x, hx, hxp⟩
  exact List.mem_map.mpr ⟨x, hx, by rw [hxp]⟩

/-- Deleting the unique file at path `p` removes exactly the scan entry of
`p.key`. -/
theorem refreshToc_eraseA {fs : List (MsgPath × MaildirMessage)}
    {p : MsgPath} (hnd : filesKeyNodup fs) (hmem : p ∈ fs.map Prod.fst) :
    refreshToc (eraseA fs p) = eraseA (refreshToc fs) p.key := by
  induction fs with
  | nil => simp at hmem
  | cons e r ih =>
      have hcons := List.nodup_cons.mp hnd
      have h1 : e.1.key ∉ r.map (fun x => x.1.key) := hcons.1
      have hnd' : filesKeyNodup r := hcons.2
      by_cases he : e.1 = p
      · have hkeys : p.key ∉ r.map (fun x => x.1.key) := by rw [← he]; exact h1
        have hpaths : p ∉ r.map Prod.fst := fun hr => hkeys (key_mem_of_path_mem hr)
        have hkk : e.1.key = p.key := by rw [he]
        simp only [eraseA_cons, if_pos he, refreshToc, List.map_cons, eraseA_cons, hkk,
          if_pos rfl]
        rw [eraseA_of_not_mem_keys _ _ hpaths]
        rw [show eraseA (r.map fun e => (e.1.key, e.1)) p.key = r.map fun e => (e.1.key, e.1) from
          eraseA_of_not_mem_keys _ _ (by simpa using hkeys)]
        simp
      · have hp : p ∈ r.map Prod.fst := by
          simp only [List.map_cons, List.mem_cons] at hmem
          rcases hmem with hx | hx
          · exact absurd hx.symm he
          · exact hx
        have hek : e.1.key ≠ p.key := by
          intro hkeq
          rw [hkeq] at h1
          exact h1 (key_mem_of_path_mem hp)
        simp only [eraseA_cons, if_neg he, refreshToc, List.map_cons, eraseA_cons, if_neg hek]
        have hr := ih hnd' hp
        simp only [refreshToc] at hr
        rw [hr]

theorem refreshToc_append (l1 l2 : List (MsgPath × MaildirMessage)) :
    refreshToc (l1 ++ l2) = refreshToc l1 ++ refreshToc l2 :=
  List.map_append _ _ _

theorem next_not_mem_toc_keys (st : MaildirState) (htb : tocBelow st) :
    st.next ∉ st.toc.map Prod.fst := by
  intro h
  rcases List.mem_map.mp h with ⟨e, he, hek⟩
  have := htb e he
  omega

theorem dest_key_lt {st : MaildirState} (hb : keysBelow st) {p : MsgPath}
    (h : p ∈ st.files.map Prod.fst) : p.key < st.next := by
  rcases List.mem_map.mp h with ⟨e, he, hep⟩
  have h1 := hb e he
  have h2 : e.1.key = p.key := by rw [hep]
  omega

theorem assoc_refreshToc_of_mem {fs : List (MsgPath × MaildirMessage)}
    (hnd : filesKeyNodup fs) {e : MsgPath × MaildirMessage} (he : e ∈ fs) :
    assoc (refreshToc fs) e.1.key = some e.1 := by
  apply assoc_some_of_mem_nodup
  · rw [refreshToc_keys]; exact hnd
  · exact List.mem_map.mpr ⟨e, he, rfl⟩

/-- Under the invariant, a TOC hit always points at an existing file. -/
theorem file_exists_of_toc (st : MaildirState) (k : Nat) (p : MsgPath)
    (h : StoreInv st) (hk : assoc st.toc k = some p) :
    (assoc st.files p).isSome := by
  have hm := h.2.2.2 k
  rw [hm] at hk
  exact assoc_isSome_of_mem_keys (refreshToc_assoc_some hk).2

theorem lookupKey_hit (st : MaildirState) (k : Nat) (p : MsgPath)
    (hk : assoc st.toc k = some p) (hf : (assoc st.files p).isSome) :
    lookupKey st k = (some p, st) := by
  simp [lookupKey, hk, hf]

theorem lookupKey_miss (st : MaildirState) (k : Nat)
    (hk : assoc st.toc k = none) (hr : assoc (refreshToc st.files) k = none) :
    lookupKey st k = (none, { st with toc := refreshToc st.files }) := by
  simp [lookupKey, hk, hr]

/-- Behaviour of `maildedup.Maildir.add` on a consistent store: the file is
created at the path built from the message's subdir and info under the fresh
key, and that key is inserted into the TOC. -/
theorem maildirAdd_spec (st : MaildirState) (m : MaildirMessage) (h : StoreInv st) :
    maildirAdd st m =
      (st.next,
       { files := st.files ++ [(⟨m.subdir, st.next, msgSuffix m⟩, m)],
         toc := setA st.toc st.next ⟨m.subdir, st.next, msgSuffix m⟩,
         next := st.next + 1 }) := by
  obtain ⟨hnd, hb, htb, htm⟩ := h
  have hfresh : (⟨m.subdir, st.next, msgSuffix m⟩ : MsgPath) ∉ st.files.map Prod.fst :=
    fresh_path_not_mem hb _ (Nat.le_refl _)
  have hfa : assoc st.files ⟨m.subdir, st.next, msgSuffix m⟩ = none :=
    assoc_eq_none_of_not_mem_keys _ _ hfresh
  have htocn : assoc st.toc st.next = none := by
    rw [htm]; exact assoc_refreshToc_fresh hb (Nat.le_refl _)
  have hset : setA st.files ⟨m.subdir, st.next, msgSuffix m⟩ m
      = st.files ++ [(⟨m.subdir, st.next, msgSuffix m⟩, m)] := setA_of_assoc_none _ _ _ hfa
  have hfa2 : assoc (st.files ++ [(⟨m.subdir, st.next, msgSuffix m⟩, m)])
      ⟨m.subdir, st.next, msgSuffix m⟩ = some m := by
    rw [assoc_append, hfa]; simp [assoc]
  simp [maildirAdd, baseAdd, hset, htocn, hfa2]

theorem storeInv_maildirAdd (st : MaildirState) (m : MaildirMessage)
    (h : StoreInv st) : StoreInv (maildirAdd st m).2 := by
  obtain ⟨hnd, hb, htb, htm⟩ := h
  rw [maildirAdd_spec st m ⟨hnd, hb, htb, htm⟩]
  refine ⟨?_, ?_, ?_, ?_⟩
  · show ((st.files ++ [((⟨m.subdir, st.next, msgSuffix m⟩ : MsgPath), m)]).map
      (fun e => e.1.key)).Nodup
    rw [List.map_append]
    rw [List.nodup_append]
    refine ⟨hnd, by simp, ?_⟩
    intro a ha hb2
    simp at hb2
    rcases List.mem_map.mp ha with ⟨e, he, hek⟩
    have := hb e he
    omega
  · intro e he
    rcases List.mem_append.mp he with h1 | h2
    · have := hb e h1; simp; omega
    · simp at h2; subst h2; simp
  · intro e he
    rcases mem_setA he with h1 | h2
    · have := htb e h1; simp; omega
    · subst h2; simp
  · intro k
    show assoc (setA st.toc st.next (⟨m.subdir, st.next, msgSuffix m⟩ : MsgPath)) k
        = assoc (refreshToc (st.files ++ [((⟨m.subdir, st.next, msgSuffix m⟩ : MsgPath), m)])) k
    rw [refreshToc_append]
    by_cases hk : k = st.next
    · subst hk
      rw [assoc_setA_self, assoc_append, assoc_refreshToc_fresh hb (Nat.le_refl _)]
      simp [refreshToc, assoc]
    · rw [assoc_setA_ne _ _ _ _ (fun he => hk he.symm), htm k, assoc_append]
      cases hca : assoc (refreshToc st.files) k
      · simp only [refreshToc, List.map_cons, List.map_nil, assoc_cons, assoc_nil]
        rw [if_neg (fun he => hk he.symm)]
      · rfl

theorem storeInv_refresh (st : MaildirState) (h : StoreInv st) :
    StoreInv { st with toc := refreshToc st.files } := by
  obtain ⟨hnd, hb, htb, htm⟩ := h
  refine ⟨hnd, hb, ?_, fun k => rfl⟩
  intro e he
  simp only [refreshToc] at he
  rcases List.mem_map.mp he with ⟨x, hx, hxe⟩
  have := hb x hx
  rw [← hxe]
  exact this

/-- Behaviour of `maildedup.Maildir.remove` on a consistent store when the
key is present: the file at the key's path and the TOC entry are removed. -/
theorem maildirRemove_some_spec (st : MaildirState) (k : Nat) (p : MsgPath)
    (h : StoreInv st) (hk : assoc st.toc k = some p) :
    maildirRemove st k =
      (true, { st with files := eraseA st.files p, toc := eraseA st.toc k }) := by
  have hf := file_exists_of_toc st k p h hk
  simp [maildirRemove, lookupKey_hit st k p hk hf]

/-- Behaviour of `maildedup.Maildir.remove` when the key is absent: the
`_lookup` refresh happens, then `KeyError` propagates. -/
theorem maildirRemove_none_spec (st : MaildirState) (k : Nat)
    (h : StoreInv st) (hk : assoc st.toc k = none) :
    maildirRemove st k = (false, { st with toc := refreshToc st.files }) := by
  have hr : assoc (refreshToc st.files) k = none := by rw [← h.2.2.2 k]; exact hk
  simp [maildirRemove, lookupKey_miss st k hk hr]

theorem storeInv_maildirRemove (st : MaildirState) (k : Nat)
    (h : StoreInv st) : StoreInv (maildirRemove st k).2 := by
  obtain ⟨hnd, hb, htb, htm⟩ := h
  cases hk : assoc st.toc k with
  | none =>
      rw [maildirRemove_none_spec st k ⟨hnd, hb, htb, htm⟩ hk]
      exact storeInv_refresh st ⟨hnd, hb, htb, htm⟩
  | some p =>
      rw [maildirRemove_some_spec st k p ⟨hnd, hb, htb, htm⟩ hk]
      have hkp : p.key = k ∧ p ∈ st.files.map Prod.fst :=
        refreshToc_assoc_some (by rw [← htm k]; exact hk)
      refine ⟨?_, ?_, ?_, ?_⟩
      · exact List.Nodup.sublist
          ((eraseA_sublist st.files p).map (fun e : MsgPath × MaildirMessage => e.1.key)) hnd
      · intro e he
        exact hb e ((eraseA_sublist _ _).subset he)
      · intro e he
        exact htb e ((eraseA_sublist _ _).subset he)
      · intro k'
        show assoc (eraseA st.toc k) k' = assoc (refreshToc (eraseA st.files p)) k'
        rw [refreshToc_eraseA hnd hkp.2, hkp.1]
        by_cases hkk : k' = k
        · subst hkk
          rw [assoc_eraseA_self, assoc_eraseA_self]
        · rw [assoc_eraseA_ne _ _ _ (fun he => hkk he.symm),
            assoc_eraseA_ne _ _ _ (fun he => hkk he.symm)]
          exact htm k'

/-- Behaviour of `maildedup.Maildir.__setitem__` on a consistent store when
the key is present and the atomic rename succeeds: the new message's file
content lands at the key's OLD path, the temporary file and its TOC entry
are gone, and the TOC is exactly as before. -/
theorem maildirSetitem_ok_spec (st : MaildirState) (k : Nat) (m : MaildirMessage)
    (dest : MsgPath) (h : StoreInv st) (hk : assoc st.toc k = some dest) :
    maildirSetitem st k m true =
      (true, { files := setA st.files dest m, toc := st.toc, next := st.next + 1 }) := by
  obtain ⟨hnd, hb, htb, htm⟩ := h
  have hf := file_exists_of_toc st k dest ⟨hnd, hb, htb, htm⟩ hk
  have h1 := lookupKey_hit st k dest hk hf
  have hadd := maildirAdd_spec st m ⟨hnd, hb, htb, htm⟩
  have hfreshpath : (⟨m.subdir, st.next, msgSuffix m⟩ : MsgPath) ∉ st.files.map Prod.fst :=
    fresh_path_not_mem hb _ (Nat.le_refl _)
  have hfa : assoc st.files ⟨m.subdir, st.next, msgSuffix m⟩ = none :=
    assoc_eq_none_of_not_mem_keys _ _ hfreshpath
  have hfa2 : assoc (st.files ++ [((⟨m.subdir, st.next, msgSuffix m⟩ : MsgPath), m)])
      ⟨m.subdir, st.next, msgSuffix m⟩ = some m := by
    rw [assoc_append, hfa]; simp [assoc]
  have hk2 : assoc (setA st.toc st.next (⟨m.subdir, st.next, msgSuffix m⟩ : MsgPath))
      st.next = some ⟨m.subdir, st.next, msgSuffix m⟩ := assoc_setA_self _ _ _
  have h2 : lookupKey
      { files := st.files ++ [((⟨m.subdir, st.next, msgSuffix m⟩ : MsgPath), m)],
        toc := setA st.toc st.next ⟨m.subdir, st.next, msgSuffix m⟩,
        next := st.next + 1 } st.next =
      (some ⟨m.subdir, st.next, msgSuffix m⟩,
       { files := st.files ++ [((⟨m.subdir, st.next, msgSuffix m⟩ : MsgPath), m)],
         toc := setA st.toc st.next ⟨m.subdir, st.next, msgSuffix m⟩,
         next := st.next + 1 }) := by
    apply lookupKey_hit
    · exact hk2
    · have hh : (assoc (st.files ++ [((⟨m.subdir, st.next, msgSuffix m⟩ : MsgPath), m)])
          ⟨m.subdir, st.next, msgSuffix m⟩).isSome := by rw [hfa2]; rfl
      exact hh
  have herase1 : eraseA (st.files ++ [((⟨m.subdir, st.next, msgSuffix m⟩ : MsgPath), m)])
      ⟨m.subdir, st.next, msgSuffix m⟩ = st.files := by
    rw [eraseA_append, eraseA_of_not_mem_keys _ _ hfreshpath]
    simp
  have htocfresh : assoc st.toc st.next = none := by
    rw [htm]; exact assoc_refreshToc_fresh hb (Nat.le_refl _)
  have herase2 : eraseA (setA st.toc st.next (⟨m.subdir, st.next, msgSuffix m⟩ : MsgPath))
      st.next = st.toc := by
    rw [setA_of_assoc_none _ _ _ htocfresh, eraseA_append,
      eraseA_of_not_mem_keys _ _ (next_not_mem_toc_keys st htb)]
    simp
  simp only [maildirSetitem, h1, hadd, h2, hfa2, if_true, herase1, herase2]

/-- Behaviour of `maildedup.Maildir.__setitem__` when the atomic rename
fails: the temporary file and its TOC entry are rolled back, the error
propagates (`false`), and files and TOC are exactly as before the call. -/
theorem maildirSetitem_fail_spec (st : MaildirState) (k : Nat) (m : MaildirMessage)
    (dest : MsgPath) (h : StoreInv st) (hk : assoc st.toc k = some dest) :
    maildirSetitem st k m false =
      (false, { files := st.files, toc := st.toc, next := st.next + 1 }) := by
  obtain ⟨hnd, hb, htb, htm⟩ := h
  have hf := file_exists_of_toc st k dest ⟨hnd, hb, htb, htm⟩ hk
  have h1 := lookupKey_hit st k dest hk hf
  have hadd := maildirAdd_spec st m ⟨hnd, hb, htb, htm⟩
  have hfreshpath : (⟨m.subdir, st.next, msgSuffix m⟩ : MsgPath) ∉ st.files.map Prod.fst :=
    fresh_path_not_mem hb _ (Nat.le_refl _)
  have hfa : assoc st.files ⟨m.subdir, st.next, msgSuffix m⟩ = none :=
    assoc_eq_none_of_not_mem_keys _ _ hfreshpath
  have hfa2 : assoc (st.files ++ [((⟨m.subdir, st.next, msgSuffix m⟩ : MsgPath), m)])
      ⟨m.subdir, st.next, msgSuffix m⟩ = some m := by
    rw [assoc_append, hfa]; simp [assoc]
  have hk2 : assoc (setA st.toc st.next (⟨m.subdir, st.next, msgSuffix m⟩ : MsgPath))
      st.next = some ⟨m.subdir, st.next, msgSuffix m⟩ := assoc_setA_self _ _ _
  have h2 : lookupKey
      { files := st.files ++ [((⟨m.subdir, st.next, msgSuffix m⟩ : MsgPath), m)],
        toc := setA st.toc st.next ⟨m.subdir, st.next, msgSuffix m⟩,
        next := st.next + 1 } st.next =
      (some ⟨m.subdir, st.next, msgSuffix m⟩,
       { files := st.files ++ [((⟨m.subdir, st.next, msgSuffix m⟩ : MsgPath), m)],
         toc := setA st.toc st.next ⟨m.subdir, st.next, msgSuffix m⟩,
         next := st.next + 1 }) := by
    apply lookupKey_hit
    · exact hk2
    · have hh : (assoc (st.files ++ [((⟨m.subdir, st.next, msgSuffix m⟩ : MsgPath), m)])
          ⟨m.subdir, st.next, msgSuffix m⟩).isSome := by rw [hfa2]; rfl
      exact hh
  have hrem : maildirRemove
      { files := st.files ++ [((⟨m.subdir, st.next, msgSuffix m⟩ : MsgPath), m)],
        toc := setA st.toc st.next ⟨m.subdir, st.next, msgSuffix m⟩,
        next := st.next + 1 } st.next =
      (true, { files := st.files, toc := st.toc, next := st.next + 1 }) := by
    unfold maildirRemove
    rw [h2]
    have herase1 : eraseA (st.files ++ [((⟨m.subdir, st.next, msgSuffix m⟩ : MsgPath), m)])
        ⟨m.subdir, st.next, msgSuffix m⟩ = st.files := by
      rw [eraseA_append, eraseA_of_not_mem_keys _ _ hfreshpath]
      simp
    have htocfresh : assoc st.toc st.next = none := by
      rw [htm]; exact assoc_refreshToc_fresh hb (Nat.le_refl _)
    have herase2 : eraseA (setA st.toc st.next (⟨m.subdir, st.next, msgSuffix m⟩ : MsgPath))
        st.next = st.toc := by
      rw [setA_of_assoc_none _ _ _ htocfresh, eraseA_append,
        eraseA_of_not_mem_keys _ _ (next_not_mem_toc_keys st htb)]
      simp
    simp only [herase1, herase2]
  simp only [maildirSetitem, h1, hadd, h2, Bool.false_eq_true, if_false, hrem]

/-- Behaviour of `maildedup.Maildir.__setitem__` when the key is absent:
the initial `_lookup` refresh happens, then `KeyError` propagates. -/
theorem maildirSetitem_miss_spec (st : MaildirState) (k : Nat) (m : MaildirMessage)
    (ro : Bool) (h : StoreInv st) (hk : assoc st.toc k = none) :
    maildirSetitem st k m ro = (false, { st with toc := refreshToc st.files }) := by
  have hr : assoc (refreshToc st.files) k = none := by rw [← h.2.2.2 k]; exact hk
  simp [maildirSetitem, lookupKey_miss st k hk hr]

theorem filesKeyNodup_map (fs : List (MsgPath × MaildirMessage)) :
    filesKeyNodup fs ↔ ((fs.map Prod.fst).map MsgPath.key).Nodup := by
  rw [List.map_map]
  exact Iff.rfl

theorem storeInv_maildirSetitem (st : MaildirState) (k : Nat) (m : MaildirMessage)
    (ro : Bool) (h : StoreInv st) : StoreInv (maildirSetitem st k m ro).2 := by
  obtain ⟨hnd, hb, htb, htm⟩ := h
  cases hk : assoc st.toc k with
  | none =>
      rw [maildirSetitem_miss_spec st k m ro ⟨hnd, hb, htb, htm⟩ hk]
      exact storeInv_refresh st ⟨hnd, hb, htb, htm⟩
  | some dest =>
      have hdmem : dest ∈ st.files.map Prod.fst := by
        have hm := htm k
        rw [hm] at hk
        exact (refreshToc_assoc_some hk).2
      cases ro with
      | false =>
          rw [maildirSetitem_fail_spec st k m dest ⟨hnd, hb, htb, htm⟩
            (by rw [htm k] at hk ⊢; exact hk)]
          refine ⟨hnd, ?_, ?_, htm⟩
          · intro e he
            have := hb e he
            show e.1.key < st.next + 1
            omega
          · intro e he
            have := htb e he
            show e.1 < st.next + 1
            omega
      | true =>
          rw [maildirSetitem_ok_spec st k m dest ⟨hnd, hb, htb, htm⟩
            (by rw [htm k] at hk ⊢; exact hk)]
          refine ⟨?_, ?_, ?_, ?_⟩
          · show filesKeyNodup (setA st.files dest m)
            rw [filesKeyNodup_map, keys_setA_of_mem _ _ _ hdmem, ← filesKeyNodup_map]
            exact hnd
          · intro e he
            show e.1.key < st.next + 1
            rcases mem_setA he with h1 | h2
            · have := hb e h1; omega
            · have := dest_key_lt hb hdmem
              rw [h2]
              simpa using Nat.lt_succ_of_lt this
          · intro e he
            have := htb e he
            show e.1 < st.next + 1
            omega
          · intro k'
            show assoc st.toc k' = assoc (refreshToc (setA st.files dest m)) k'
            rw [refreshToc_setA_mem _ _ _ hdmem]
            exact htm k'

theorem storeInv_execOp (st : MaildirState) (op : MOp) (h : StoreInv st) :
    StoreInv (execOp st op) := by
  cases op with
  | madd m => exact storeInv_maildirAdd st m h
  | mremove k => exact storeInv_maildirRemove st k h
  | mreplace k m => exact storeInv_maildirSetitem st k m true h
  | mreplaceFail k m => exact storeInv_maildirSetitem st k m false h

theorem storeInv_execOps (st : MaildirState) (ops : List MOp) (h : StoreInv st) :
    StoreInv (execOps st ops) := by
  induction ops generalizing st with
  | nil => exact h
  | cons op rest ih => exact ih (execOp st op) (storeInv_execOp st op h)

/-- The empty mailbox is consistent. -/
theorem storeInv_nil : StoreInv ⟨[], [], 0⟩ := by
  refine ⟨List.nodup_nil, ?_, ?_, fun k => rfl⟩
  · intro e he; exact absurd he (List.not_mem_nil e)
  · intro e he; exact absurd he (List.not_mem_nil e)

theorem assoc_none_iff_keys {α β : Type} [DecidableEq α]
    (l : List (α × β)) (a : α) :
    assoc l a = none ↔ a ∉ l.map Prod.fst := by
  constructor
  · intro h hm
    have := assoc_isSome_of_mem_keys hm
    rw [h] at this
    simp at this
  · exact assoc_eq_none_of_not_mem_keys l a

/-- C1: after any sequence of `add` / `remove` / `replace` operations on a
consistent store, every key present in the TOC maps to a path at which a
file exists, and every message file present in the directory is the target
of exactly one TOC key — the TOC agrees with a fresh directory scan. -/
theorem c1_toc_consistent (st0 : MaildirState) (ops : List MOp) (h : StoreInv st0) :
    (∀ k p, assoc (execOps st0 ops).toc k = some p →
      (assoc (execOps st0 ops).files p).isSome) ∧
    (∀ e ∈ (execOps st0 ops).files,
      ∃! k, assoc (execOps st0 ops).toc k = some e.1) ∧
    (∀ k, assoc (execOps st0 ops).toc k = assoc (refreshToc (execOps st0 ops).files) k) := by
  have hinv := storeInv_execOps st0 ops h
  refine ⟨?_, ?_, hinv.2.2.2⟩
  · intro k p hk
    exact file_exists_of_toc _ k p hinv hk
  · intro e he
    refine ⟨e.1.key, ?_, ?_⟩
    · show assoc (execOps st0 ops).toc e.1.key = some e.1
      rw [hinv.2.2.2 e.1.key]
      exact assoc_refreshToc_of_mem hinv.1 he
    · intro k' hk'
      rw [hinv.2.2.2 k'] at hk'
      exact (refreshToc_assoc_some hk').1.symm

/-- Sample messages and a sample consistent one-message store used by the
closed witness instances. -/
def mW1 : MaildirMessage := ⟨[("X-GMAIL-MSGID", "1")], "b1", 3, "new", ""⟩

def mW2 : MaildirMessage := ⟨[("X-GMAIL-MSGID", "1")], "b2", 7, "cur", "2,S"⟩

def pW : MsgPath := ⟨"new", 0, ""⟩

def stW : MaildirState := ⟨[(pW, mW1)], [(0, pW)], 1⟩

theorem storeInv_stW : StoreInv stW := by
  refine ⟨?_, ?_, ?_, fun k => rfl⟩
  · show (stW.files.map (fun e => e.1.key)).Nodup
    decide
  · intro e he
    rcases List.mem_singleton.mp he with rfl
    exact Nat.zero_lt_one
  · intro e he
    rcases List.mem_singleton.mp he with rfl
    exact Nat.zero_lt_one

/-- Witness for C1 at a concrete operation sequence from the empty store. -/
def c1ops : List MOp :=
  [.madd mW1, .mreplace 0 mW2, .madd mW2, .mremove 1, .mreplaceFail 0 mW1, .mremove 99]

theorem c1_witness :
    StoreInv ⟨[], [], 0⟩ ∧
    ((∀ k p, assoc (execOps ⟨[], [], 0⟩ c1ops).toc k = some p →
       (assoc (execOps ⟨[], [], 0⟩ c1ops).files p).isSome) ∧
     (∀ e ∈ (execOps ⟨[], [], 0⟩ c1ops).files,
       ∃! k, assoc (execOps ⟨[], [], 0⟩ c1ops).toc k = some e.1) ∧
     (∀ k, assoc (execOps ⟨[], [], 0⟩ c1ops).toc k
        = assoc (refreshToc (execOps ⟨[], [], 0⟩ c1ops).files) k)) :=
  ⟨storeInv_nil, c1_toc_consistent ⟨[], [], 0⟩ c1ops storeInv_nil⟩

theorem assoc_refreshToc_none_iff (fs : List (MsgPath × MaildirMessage)) (k : Nat) :
    assoc (refreshToc fs) k = none ↔ ∀ e ∈ fs, e.1.key ≠ k := by
  rw [assoc_none_iff_keys, refreshToc_keys]
  constructor
  · intro h e he hk
    exact h (List.mem_map.mpr ⟨e, he, hk⟩)
  · intro h hm
    rcases List.mem_map.mp hm with ⟨e, he, hk⟩
    exact h e he hk

/-- C5: `remove(key)` deletes the key's file and its TOC entry; it fails
with `KeyError` (the not-found error) exactly when the key is absent from
the store (no file named by the key exists); the `del self._toc[key]`
cleanup is modelled total (its `KeyError` is swallowed), so the successful
branch always returns cleanly with both the file and the TOC entry gone. -/
theorem c5_remove (st : MaildirState) (k : Nat) (h : StoreInv st) :
    (∀ p, assoc st.toc k = some p →
      maildirRemove st k =
        (true, { st with files := eraseA st.files p, toc := eraseA st.toc k }) ∧
      assoc (eraseA st.files p) p = none ∧
      assoc (eraseA st.toc k) k = none) ∧
    ((maildirRemove st k).1 = false ↔ ∀ e ∈ st.files, e.1.key ≠ k) := by
  constructor
  · intro p hp
    exact ⟨maildirRemove_some_spec st k p h hp,
      assoc_eraseA_self _ _, assoc_eraseA_self _ _⟩
  · cases hk : assoc st.toc k with
    | none =>
        rw [maildirRemove_none_spec st k h hk]
        have hr : assoc (refreshToc st.files) k = none := by
          rw [← h.2.2.2 k]; exact hk
        simp only [true_iff]
        exact (assoc_refreshToc_none_iff st.files k).mp hr
    | some p =>
        rw [maildirRemove_some_spec st k p h hk]
        have hr : assoc (refreshToc st.files) k = some p := by
          rw [← h.2.2.2 k]; exact hk
        have hmem := (refreshToc_assoc_some hr).2
        have hkey := (refreshToc_assoc_some hr).1
        simp only [Bool.true_eq_false, false_iff]
        intro hall
        rcases List.mem_map.mp hmem with ⟨e, he, hep⟩
        apply hall e he
        rw [show e.1 = p from hep, hkey]

/-- C6: a successful `replace(key, message)` leaves the original key valid
with the new content at its old path, with the temporary key absent from
both TOC and directory; a `replace` whose atomic rename fails rolls the
temporary file and TOC entry back, restoring files and TOC exactly; and
even the intermediate state holding the temporary file maps each key to at
most one file (pairwise-distinct file keys). -/
theorem c6_replace (st : MaildirState) (k : Nat) (m : MaildirMessage)
    (dest : MsgPath) (h : StoreInv st) (hk : assoc st.toc k = some dest) :
    (maildirSetitem st k m true =
       (true, { files := setA st.files dest m, toc := st.toc, next := st.next + 1 }) ∧
     assoc (setA st.files dest m) dest = some m ∧
     assoc st.toc st.next = none ∧
     (∀ e ∈ setA st.files dest m, e.1.key ≠ st.next)) ∧
    maildirSetitem st k m false =
      (false, { files := st.files, toc := st.toc, next := st.next + 1 }) ∧
    filesKeyNodup (maildirAdd st m).2.files := by
  obtain ⟨hnd, hb, htb, htm⟩ := h
  have hdmem : dest ∈ st.files.map Prod.fst := by
    have hm := htm k
    rw [hm] at hk
    exact (refreshToc_assoc_some hk).2
  have hk' : assoc st.toc k = some dest := by rw [htm k] at hk ⊢; exact hk
  refine ⟨⟨maildirSetitem_ok_spec st k m dest ⟨hnd, hb, htb, htm⟩ hk',
      assoc_setA_self _ _ _, ?_, ?_⟩,
    maildirSetitem_fail_spec st k m dest ⟨hnd, hb, htb, htm⟩ hk',
    (storeInv_maildirAdd st m ⟨hnd, hb, htb, htm⟩).1⟩
  · rw [htm st.next]
    exact assoc_refreshToc_fresh hb (Nat.le_refl _)
  · intro e he hkey
    rcases mem_setA he with h1 | h2
    · have := hb e h1
      omega
    · have := dest_key_lt hb hdmem
      rw [h2] at hkey
      simp at hkey
      omega

/-- C10: a successful `replace(key, message)` keeps the key's TOC path
exactly as before the call — the replacement lands at the OLD path, so the
old subdirectory and flags suffix are retained; the whole TOC map (hence
its key set) is unchanged, and no file for the temporary path built from
the new message's own subdir/info remains. -/
theorem c10_replace_frame (st : MaildirState) (k : Nat) (m : MaildirMessage)
    (dest : MsgPath) (h : StoreInv st) (hk : assoc st.toc k = some dest) :
    assoc (maildirSetitem st k m true).2.toc k = some dest ∧
    (∀ k', assoc (maildirSetitem st k m true).2.toc k' = assoc st.toc k') ∧
    assoc (maildirSetitem st k m true).2.files dest = some m ∧
    assoc (maildirSetitem st k m true).2.files ⟨m.subdir, st.next, msgSuffix m⟩ = none := by
  obtain ⟨hnd, hb, htb, htm⟩ := h
  have hdmem : dest ∈ st.files.map Prod.fst := by
    have hm := htm k
    rw [hm] at hk
    exact (refreshToc_assoc_some hk).2
  have hk' : assoc st.toc k = some dest := by rw [htm k] at hk ⊢; exact hk
  rw [maildirSetitem_ok_spec st k m dest ⟨hnd, hb, htb, htm⟩ hk']
  refine ⟨hk', fun k' => rfl, assoc_setA_self _ _ _, ?_⟩
  show assoc (setA st.files dest m) ⟨m.subdir, st.next, msgSuffix m⟩ = none
  apply assoc_eq_none_of_not_mem_keys
  rw [keys_setA_of_mem _ _ _ hdmem]
  exact fresh_path_not_mem hb _ (Nat.le_refl _)

theorem c5_witness :
    StoreInv stW ∧
    ((∀ p, assoc stW.toc 0 = some p →
       maildirRemove stW 0 =
         (true, { stW with files := eraseA stW.files p, toc := eraseA stW.toc 0 }) ∧
       assoc (eraseA stW.files p) p = none ∧
       assoc (eraseA stW.toc 0) 0 = none) ∧
     ((maildirRemove stW 0).1 = false ↔ ∀ e ∈ stW.files, e.1.key ≠ 0)) :=
  ⟨storeInv_stW, c5_remove stW 0 storeInv_stW⟩

theorem c6_witness :
    StoreInv stW ∧ assoc stW.toc 0 = some pW ∧
    ((maildirSetitem stW 0 mW2 true =
        (true, { files := setA stW.files pW mW2, toc := stW.toc, next := stW.next + 1 }) ∧
      assoc (setA stW.files pW mW2) pW = some mW2 ∧
      assoc stW.toc stW.next = none ∧
      (∀ e ∈ setA stW.files pW mW2, e.1.key ≠ stW.next)) ∧
     maildirSetitem stW 0 mW2 false =
       (false, { files := stW.files, toc := stW.toc, next := stW.next + 1 }) ∧
     filesKeyNodup (maildirAdd stW mW2).2.files) :=
  ⟨storeInv_stW, rfl, c6_replace stW 0 mW2 pW storeInv_stW rfl⟩

theorem c10_witness :
    StoreInv stW ∧ assoc stW.toc 0 = some pW ∧
    (assoc (maildirSetitem stW 0 mW2 true).2.toc 0 = some pW ∧
     (∀ k', assoc (maildirSetitem stW 0 mW2 true).2.toc k' = assoc stW.toc k') ∧
     assoc (maildirSetitem stW 0 mW2 true).2.files pW = some mW2 ∧
     assoc (maildirSetitem stW 0 mW2 true).2.files
       ⟨mW2.subdir, stW.next, msgSuffix mW2⟩ = none) :=
  ⟨storeInv_stW, rfl, c10_replace_frame stW 0 mW2 pW storeInv_stW rfl⟩

/-! ## The deduplication engine (`maildir_dedup`)

The engine sees the mailbox through `iteritems` / `get_message` /
`__setitem__` / `remove` as a finite map from keys to messages; it is
modelled here directly over that map (a key-to-message association list in
enumeration order). `print` output is collected as a list of report lines
and every store mutation call is recorded as an `Act`. -/

abbrev EngineBox := List (Nat × MaildirMessage)

/-- ASCII lower-casing of one character (header names are ASCII; this is
what Python's `str.lower()` does on them). -/
def lowerChar (c : Char) : Char :=
  if 'A' ≤ c ∧ c ≤ 'Z' then Char.ofNat (c.toNat + 32) else c

/-- ASCII lower-casing of a header name (`name.lower()`). -/
def lowerName (s : String) : String := ⟨s.data.map lowerChar⟩

/-- `msg[name]` on an email message: the value of the first header field
whose name matches case-insensitively, or `None`. -/
def getHeader (m : MaildirMessage) (name : String) : Option String :=
  (m.headers.find? (fun h => decide (lowerName h.1 = lowerName name))).map (fun h => h.2)

/-- The `X-GMAIL-MSGID` grouping header. -/
def msgidOf (m : MaildirMessage) : Option String :=
  getHeader m "X-GMAIL-MSGID"

/-- Lower-cased names of the two provenance headers removed before
hashing (`del tmp_msg[...]` matches header names case-insensitively). -/
def provNamesLower : List String :=
  ["x-getmail-retrieved-from-mailbox", "x-gmail-labels"]

/-- The exact spellings tested by the merge loop's case-SENSITIVE
membership check `key not in ('X-getmail-retrieved-from-mailbox',
'X-GMAIL-LABELS')`. -/
def provNamesExact : List String :=
  ["X-getmail-retrieved-from-mailbox", "X-GMAIL-LABELS"]

/-- Header list after `del tmp_msg['X-getmail-retrieved-from-mailbox']`
and `del tmp_msg['X-GMAIL-LABELS']` (each deletes all case-insensitive
occurrences). -/
def stripProv (hs : List (String × String)) : List (String × String) :=
  hs.filter (fun h => decide (lowerName h.1 ∉ provNamesLower))

/-- The SHA-512 digest of `_dump_message(tmp_msg)`, modelled injectively:
`_dump_message` serializes exactly the header fields (in order) and the
body, so digest equality is equality of the stripped header list and the
body. -/
def digestOf (m : MaildirMessage) : List (String × String) × String :=
  (stripProv m.headers, m.body)

/-- `defaultdict(list)` accumulation: append to the existing group of the
key, or create a new group at the end (Python dicts iterate in insertion
order). -/
def addToGroups {α β : Type} [DecidableEq α] :
    List (α × List β) → α → β → List (α × List β)
  | [], a, b => [(a, [b])]
  | (x, bs) :: r, a, b =>
      if x = a then (a, bs ++ [b]) :: r else (x, bs) :: addToGroups r a b

/-- First loop of `maildir_dedup`: group keys by the `X-GMAIL-MSGID`
header value; messages lacking the header are skipped. -/
def groupByMsgid (mbox : EngineBox) : List (String × List Nat) :=
  mbox.foldl (fun acc e =>
    match msgidOf e.2 with
    | none => acc
    | some mid => addToGroups acc mid e.1) []

/-- Digest loop of `maildir_dedup` for one identifier group: fetch each
key's message from the current mailbox (`mbox.get_message(key)`) and group
the `(key, msg)` pairs by digest. -/
def fetchDigestGroups (st : EngineBox) (keys : List Nat) :
    List ((List (String × String) × String) × List (Nat × MaildirMessage)) :=
  keys.foldl (fun acc k =>
    match assoc st k with
    | none => acc
    | some m => addToGroups acc (digestOf m) (k, m)) []

/-- Stable insertion keeping equal dates in their original relative order
(Python's `sorted` is stable). -/
def insertByDate (x : Nat × MaildirMessage) :
    List (Nat × MaildirMessage) → List (Nat × MaildirMessage)
  | [] => [x]
  | y :: r => if x.2.date ≤ y.2.date then x :: y :: r else y :: insertByDate x r

/-- `sorted(msgs, key=lambda key_msg: key_msg[1].get_date())`. -/
def sortByDate : List (Nat × MaildirMessage) → List (Nat × MaildirMessage)
  | [] => []
  | x :: r => insertByDate x (sortByDate r)

/-- One step of the header-merge loop: for one `(key, val)` pair of a
casualty, append it to the survivor when the name is one of the two exact
provenance names and the exact pair is not already present; record whether
anything changed. -/
def mergeOne (acc : MaildirMessage × Bool) (kv : String × String) :
    MaildirMessage × Bool :=
  if kv.1 ∈ provNamesExact then
    if kv ∈ acc.1.headers then acc
    else ({ acc.1 with headers := acc.1.headers ++ [kv] }, true)
  else acc

/-- The merge loop `for _, msg in msgs: for key, val in msg.items(): ...`
over all casualties. -/
def mergeHeaders (nm : MaildirMessage) (rest : List (Nat × MaildirMessage)) :
    MaildirMessage × Bool :=
  rest.foldl (fun acc e => e.2.headers.foldl mergeOne acc) (nm, false)

/-- A store mutation issued by the engine. -/
inductive Act where
  | replace (k : Nat)
  | remove (k : Nat)
  | flush
deriving DecidableEq, Repr

/-- Processing of one identical set (digest group of size at least 2):
sort by timestamp, pop the survivor, set its date to the last (newest)
member's date, merge provenance headers, report, and in live mode update
the survivor if changed, remove every casualty, and flush. -/
def processSet (dryrun : Bool) (st : EngineBox)
    (msgs : List (Nat × MaildirMessage)) :
    EngineBox × List String × List Act :=
  match sortByDate msgs with
  | [] => (st, [], [])
  | (newKey, sMsg) :: rest =>
    let lastDate := ((rest.getLast?).map (fun e => e.2.date)).getD sMsg.date
    let merged := mergeHeaders { sMsg with date := lastDate } rest
    let rep :=
      (if merged.2 then ["Updating message " ++ toString newKey] else [])
        ++ rest.map (fun e => "Deleting duplicate message " ++ toString e.1)
    if dryrun then (st, rep, [])
    else
      let st1 := if merged.2 then setA st newKey merged.1 else st
      let st2 := rest.foldl (fun s e => eraseA s e.1) st1
      (st2, rep,
        (if merged.2 then [Act.replace newKey] else [])
          ++ rest.map (fun e => Act.remove e.1) ++ [Act.flush])

/-- Fold step over one digest group (`if len(msgs) < 2: continue`). -/
def dedupDigestGroup (dryrun : Bool)
    (acc : EngineBox × List String × List Act)
    (dg : (List (String × String) × String) × List (Nat × MaildirMessage)) :
    EngineBox × List String × List Act :=
  if dg.2.length < 2 then acc
  else
    let r := processSet dryrun acc.1 dg.2
    (r.1, acc.2.1 ++ r.2.1, acc.2.2 ++ r.2.2)

/-- Fold step over one identifier group (`if len(keys) < 2: continue`);
the digest groups are fetched from the CURRENT mailbox state. -/
def dedupGroup (dryrun : Bool)
    (acc : EngineBox × List String × List Act)
    (g : String × List Nat) :
    EngineBox × List String × List Act :=
  if g.2.length < 2 then acc
  else (fetchDigestGroups acc.1 g.2).foldl (dedupDigestGroup dryrun) acc

/-- `maildir_dedup(mbox, dryrun)`: returns the final mailbox state, the
report lines printed, and the store mutations issued. -/
def maildir_dedup (mbox : EngineBox) (dryrun : Bool) :
    EngineBox × List String × List Act :=
  (groupByMsgid mbox).foldl (dedupGroup dryrun) (mbox, [], [])

/-! ### Survivor selection (C9) -/

/-- Minimum of the timestamps of a list of `(key, message)` pairs. -/
def datesMin : List (Nat × MaildirMessage) → Option Int
  | [] => none
  | e :: r =>
      match datesMin r with
      | none => some e.2.date
      | some d => some (min e.2.date d)

theorem datesMin_eq_none (l : List (Nat × MaildirMessage)) :
    datesMin l = none ↔ l = [] := by
  cases l with
  | nil => simp [datesMin]
  | cons x r =>
      simp only [datesMin]
      cases datesMin r <;> simp

theorem datesMin_le (l : List (Nat × MaildirMessage)) (d : Int)
    (hd : datesMin l = some d) : ∀ e ∈ l, d ≤ e.2.date := by
  induction l generalizing d with
  | nil => simp [datesMin] at hd
  | cons x r ih =>
      intro e he
      cases hr : datesMin r with
      | none =>
          have hre : r = [] := (datesMin_eq_none r).mp hr
          subst hre
          simp only [datesMin] at hd
          cases hd
          rcases List.mem_singleton.mp he with rfl
          exact le_refl _
      | some dr =>
          simp only [datesMin, hr] at hd
          cases hd
          rcases List.mem_cons.mp he with h1 | hmem
          · rw [h1]; exact min_le_left _ _
          · exact le_trans (min_le_right _ _) (ih dr hr e hmem)

theorem insertByDate_length (x : Nat × MaildirMessage)
    (l : List (Nat × MaildirMessage)) :
    (insertByDate x l).length = l.length + 1 := by
  induction l with
  | nil => rfl
  | cons y r ih =>
      by_cases h : x.2.date ≤ y.2.date <;> simp [insertByDate, h, ih]

theorem sortByDate_length (l : List (Nat × MaildirMessage)) :
    (sortByDate l).length = l.length := by
  induction l with
  | nil => rfl
  | cons x r ih => simp [sortByDate, insertByDate_length, ih]

/-- C9: survivor selection is deterministic — the head of the stable sort
(the member `maildir_dedup` pops as survivor) is the FIRST member, in
traversal order, whose timestamp attains the minimum of the set. -/
theorem c9_survivor_selection (msgs : List (Nat × MaildirMessage)) (d : Int)
    (hd : datesMin msgs = some d) :
    (∀ e ∈ msgs, d ≤ e.2.date) ∧
    (sortByDate msgs).head? = msgs.find? (fun e => decide (e.2.date = d)) := by
  refine ⟨datesMin_le msgs d hd, ?_⟩
  induction msgs generalizing d with
  | nil => simp [datesMin] at hd
  | cons x r ih =>
      cases hr : datesMin r with
      | none =>
          have hre : r = [] := (datesMin_eq_none r).mp hr
          subst hre
          simp only [datesMin] at hd
          cases hd
          simp [sortByDate, insertByDate, List.find?]
      | some dr =>
          simp only [datesMin, hr] at hd
          cases hd
          have hrne : r ≠ [] := by
            intro h
            rw [h] at hr
            simp [datesMin] at hr
          have hsne : sortByDate r ≠ [] := by
            intro h
            apply hrne
            have hl := sortByDate_length r
            rw [h] at hl
            exact List.length_eq_zero.mp hl.symm
          cases hs : sortByDate r with
          | nil => exact absurd hs hsne
          | cons y ys =>
              have hihr := ih dr hr
              rw [hs] at hihr
              have hfind : List.find? (fun e => decide (e.2.date = dr)) r = some y :=
                hihr.symm
              have hyd : y.2.date = dr := by
                have hp := List.find?_some hfind
                exact of_decide_eq_true hp
              by_cases hc : x.2.date ≤ dr
              · have hdx : min x.2.date dr = x.2.date := min_eq_left hc
                rw [hdx]
                show (insertByDate x (sortByDate r)).head? = _
                rw [hs]
                simp only [insertByDate]
                rw [if_pos (by rw [hyd]; exact hc)]
                rw [List.find?_cons_of_pos _ (by simp)]
                rfl
              · have hlt : dr < x.2.date := lt_of_not_le hc
                have hdx : min x.2.date dr = dr := min_eq_right (le_of_lt hlt)
                rw [hdx]
                show (insertByDate x (sortByDate r)).head? = _
                rw [hs]
                simp only [insertByDate]
                rw [if_neg (by rw [hyd]; exact hc)]
                rw [List.find?_cons_of_neg _ (by simp; omega)]
                rw [hfind]
                rfl

/-- Witness for C9 with a genuine timestamp tie: keys 1 and 2 share the
minimal date 3 and the earlier-traversed key 1 is selected. -/
def c9msgs : List (Nat × MaildirMessage) :=
  [(0, ⟨[], "a", 5, "new", ""⟩), (1, ⟨[], "b", 3, "new", ""⟩),
   (2, ⟨[], "c", 3, "new", ""⟩)]

theorem c9_witness :
    datesMin c9msgs = some 3 ∧
    ((∀ e ∈ c9msgs, (3 : Int) ≤ e.2.date) ∧
     (sortByDate c9msgs).head? = c9msgs.find? (fun e => decide (e.2.date = 3))) :=
  ⟨by decide, c9_survivor_selection c9msgs 3 (by decide)⟩

/-! ### Provenance-header merge (C7) -/

theorem mergeOne_headers (acc : MaildirMessage × Bool) (p : String × String) :
    (mergeOne acc p).1.headers = acc.1.headers ∨
    ((mergeOne acc p).1.headers = acc.1.headers ++ [p] ∧
     p ∉ acc.1.headers ∧ p.1 ∈ provNamesExact) := by
  unfold mergeOne
  by_cases h1 : p.1 ∈ provNamesExact
  · by_cases h2 : p ∈ acc.1.headers
    · left; simp [h1, h2]
    · right; simp [h1, h2]
  · left; simp [h1]

theorem mergeOne_body (acc : MaildirMessage × Bool) (p : String × String) :
    (mergeOne acc p).1.body = acc.1.body := by
  unfold mergeOne
  by_cases h1 : p.1 ∈ provNamesExact
  · by_cases h2 : p ∈ acc.1.headers <;> simp [h1, h2]
  · simp [h1]

theorem mergeOne_date (acc : MaildirMessage × Bool) (p : String × String) :
    (mergeOne acc p).1.date = acc.1.date := by
  unfold mergeOne
  by_cases h1 : p.1 ∈ provNamesExact
  · by_cases h2 : p ∈ acc.1.headers <;> simp [h1, h2]
  · simp [h1]

theorem mergeFold_mem_mono (ps : List (String × String))
    (acc : MaildirMessage × Bool) (kv : String × String)
    (h : kv ∈ acc.1.headers) : kv ∈ (ps.foldl mergeOne acc).1.headers := by
  induction ps generalizing acc with
  | nil => exact h
  | cons p r ih =>
      apply ih
      rcases mergeOne_headers acc p with h1 | h2
      · rw [h1]; exact h
      · rw [h2.1]; exact List.mem_append_left _ h
 
theorem mergeFold_complete (ps : List (String × String))
    (acc : MaildirMessage × Bool) (kv : String × String)
    (hmem : kv ∈ ps) (hprov : kv.1 ∈ provNamesExact) :
    kv ∈ (ps.foldl mergeOne acc).1.headers := by
  induction ps generalizing acc with
  | nil => simp at hmem
  | cons p r ih =>
      rcases List.mem_cons.mp hmem with h1 | h2
      · subst h1
        rw [List.foldl_cons]
        apply mergeFold_mem_mono
        unfold mergeOne
        rw [if_pos hprov]
        by_cases h2 : kv ∈ acc.1.headers
        · rw [if_pos h2]; exact h2
        · rw [if_neg h2]; simp
      · exact ih _ h2

theorem mergeFold_count_mem (ps : List (String × String))
    (acc : MaildirMessage × Bool) (kv : String × String)
    (h : kv ∈ acc.1.headers) :
    (ps.foldl mergeOne acc).1.headers.count kv = acc.1.headers.count kv := by
  induction ps generalizing acc with
  | nil => rfl
  | cons p r ih =>
      rcases mergeOne_headers acc p with h1 | h2
      · have := ih (mergeOne acc p) (by rw [h1]; exact h)
        rw [List.foldl_cons, this, h1]
      · have hne : kv ≠ p := fun he => h2.2.1 (he ▸ h)
        have := ih (mergeOne acc p) (by rw [h2.1]; exact List.mem_append_left _ h)
        rw [List.foldl_cons, this, h2.1, List.count_append]
        simp [List.count_singleton, hne]

theorem mergeFold_count_le (ps : List (String × String))
    (acc : MaildirMessage × Bool) (kv : String × String)
    (h : acc.1.headers.count kv ≤ 1) :
    (ps.foldl mergeOne acc).1.headers.count kv ≤ 1 := by
  induction ps generalizing acc with
  | nil => exact h
  | cons p r ih =>
      apply ih
      rcases mergeOne_headers acc p with h1 | h2
      · rw [h1]; exact h
      · rw [h2.1, List.count_append]
        by_cases hne : kv = p
        · subst hne
          have : acc.1.headers.count kv = 0 := List.count_eq_zero.mpr h2.2.1
          simp [this]
        · simp [List.count_singleton, hne]
          exact h

theorem mergeRest_mem_mono (rest : List (Nat × MaildirMessage))
    (acc : MaildirMessage × Bool) (kv : String × String)
    (h : kv ∈ acc.1.headers) :
    kv ∈ (rest.foldl (fun a e => e.2.headers.foldl mergeOne a) acc).1.headers := by
  induction rest generalizing acc with
  | nil => exact h
  | cons e r ih => exact ih _ (mergeFold_mem_mono _ _ _ h)

theorem mergeRest_count_mem (rest : List (Nat × MaildirMessage))
    (acc : MaildirMessage × Bool) (kv : String × String)
    (h : kv ∈ acc.1.headers) :
    (rest.foldl (fun a e => e.2.headers.foldl mergeOne a) acc).1.headers.count kv
      = acc.1.headers.count kv := by
  induction rest generalizing acc with
  | nil => rfl
  | cons e r ih =>
      rw [List.foldl_cons, ih _ (mergeFold_mem_mono _ _ _ h), mergeFold_count_mem _ _ _ h]

theorem mergeRest_count_le (rest : List (Nat × MaildirMessage))
    (acc : MaildirMessage × Bool) (kv : String × String)
    (h : acc.1.headers.count kv ≤ 1) :
    (rest.foldl (fun a e => e.2.headers.foldl mergeOne a) acc).1.headers.count kv ≤ 1 := by
  induction rest generalizing acc with
  | nil => exact h
  | cons e r ih => exact ih _ (mergeFold_count_le _ _ _ h)

/-- C7 counterexample: header names in the merge filter are compared
case-SENSITIVELY against the two exact spellings, while the digest strips
them case-insensitively.  A casualty carrying `x-gmail-labels: foo`
(non-standard case) hashes identically to a survivor without it, yet the
pair is never merged onto the survivor — even after a full live pass. -/
def c7survivor : MaildirMessage := ⟨[("X-GMAIL-MSGID", "m")], "b", 1, "new", ""⟩

def c7casualty : MaildirMessage :=
  ⟨[("X-GMAIL-MSGID", "m"), ("x-gmail-labels", "foo")], "b", 2, "new", ""⟩

theorem c7_counterexample :
    digestOf c7survivor = digestOf c7casualty ∧
    lowerName "x-gmail-labels" ∈ provNamesLower ∧
    ("x-gmail-labels", "foo") ∈ c7casualty.headers ∧
    ("x-gmail-labels", "foo") ∉
      (mergeHeaders { c7survivor with date := 2 } [(1, c7casualty)]).1.headers ∧
    (maildir_dedup [(0, c7survivor), (1, c7casualty)] false).1 = [(0, c7survivor)] := by
  decide

/-- C7 as amended: after merging an identical set, every distinct
(field, value) pair of a casualty whose field name EXACTLY (case-
sensitively) matches one of the two provenance names is present on the
survivor; a pair already present on the survivor is never appended again
(its multiplicity is unchanged), and a pair not initially present occurs
at most once afterwards. -/
theorem c7_amended (nm : MaildirMessage) (rest : List (Nat × MaildirMessage)) :
    (∀ e ∈ rest, ∀ kv ∈ e.2.headers, kv.1 ∈ provNamesExact →
       kv ∈ (mergeHeaders nm rest).1.headers) ∧
    (∀ kv ∈ nm.headers,
       (mergeHeaders nm rest).1.headers.count kv = nm.headers.count kv) ∧
    (∀ kv, kv ∉ nm.headers → (mergeHeaders nm rest).1.headers.count kv ≤ 1) := by
  refine ⟨?_, ?_, ?_⟩
  · intro e he kv hkv hprov
    rcases List.append_of_mem he with ⟨l1, l2, rfl⟩
    show kv ∈ ((l1 ++ e :: l2).foldl (fun a x => x.2.headers.foldl mergeOne a)
      (nm, false)).1.headers
    rw [show l1 ++ e :: l2 = (l1 ++ [e]) ++ l2 by simp, List.foldl_append]
    apply mergeRest_mem_mono
    rw [List.foldl_append]
    exact mergeFold_complete _ _ _ hkv hprov
  · intro kv hkv
    exact mergeRest_count_mem rest (nm, false) kv hkv
  · intro kv hkv
    apply mergeRest_count_le rest (nm, false) kv
    show nm.headers.count kv ≤ 1
    rw [List.count_eq_zero.mpr hkv]
    exact Nat.zero_le 1

theorem c7_witness :
    ((∀ e ∈ [(1, c7casualty)], ∀ kv ∈ e.2.headers, kv.1 ∈ provNamesExact →
        kv ∈ (mergeHeaders c7survivor [(1, c7casualty)]).1.headers) ∧
     (∀ kv ∈ c7survivor.headers,
        (mergeHeaders c7survivor [(1, c7casualty)]).1.headers.count kv
          = c7survivor.headers.count kv) ∧
     (∀ kv, kv ∉ c7survivor.headers →
        (mergeHeaders c7survivor [(1, c7casualty)]).1.headers.count kv ≤ 1)) :=
  c7_amended c7survivor [(1, c7casualty)]

/-! ### Persistence of the survivor (C3) and the survivor rule (C2) -/

theorem mergeFold_body (ps : List (String × String)) (acc : MaildirMessage × Bool) :
    (ps.foldl mergeOne acc).1.body = acc.1.body := by
  induction ps generalizing acc with
  | nil => rfl
  | cons p r ih => rw [List.foldl_cons, ih, mergeOne_body]

theorem mergeFold_date (ps : List (String × String)) (acc : MaildirMessage × Bool) :
    (ps.foldl mergeOne acc).1.date = acc.1.date := by
  induction ps generalizing acc with
  | nil => rfl
  | cons p r ih => rw [List.foldl_cons, ih, mergeOne_date]

theorem mergeRest_body (rest : List (Nat × MaildirMessage)) (acc : MaildirMessage × Bool) :
    (rest.foldl (fun a e => e.2.headers.foldl mergeOne a) acc).1.body = acc.1.body := by
  induction rest generalizing acc with
  | nil => rfl
  | cons e r ih => rw [List.foldl_cons, ih, mergeFold_body]

theorem mergeRest_date (rest : List (Nat × MaildirMessage)) (acc : MaildirMessage × Bool) :
    (rest.foldl (fun a e => e.2.headers.foldl mergeOne a) acc).1.date = acc.1.date := by
  induction rest generalizing acc with
  | nil => rfl
  | cons e r ih => rw [List.foldl_cons, ih, mergeFold_date]

theorem mergeHeaders_body (nm : MaildirMessage) (rest : List (Nat × MaildirMessage)) :
    (mergeHeaders nm rest).1.body = nm.body := mergeRest_body rest (nm, false)

theorem mergeHeaders_date (nm : MaildirMessage) (rest : List (Nat × MaildirMessage)) :
    (mergeHeaders nm rest).1.date = nm.date := mergeRest_date rest (nm, false)

/-- C3 counterexample: two identical messages whose timestamps differ but
whose provenance headers agree.  The survivor IS modified (its timestamp is
set from 1 to 2 in memory), yet the live pass issues no `replace` — only
the casualty's `remove` and the flush. -/
def c3m1 : MaildirMessage := ⟨[("X-GMAIL-MSGID", "m")], "b", 1, "new", ""⟩

def c3m2 : MaildirMessage := ⟨[("X-GMAIL-MSGID", "m")], "b", 2, "new", ""⟩

theorem c3_counterexample :
    digestOf c3m1 = digestOf c3m2 ∧
    c3m1.date ≠ c3m2.date ∧
    (maildir_dedup [(0, c3m1), (1, c3m2)] false).2.2 = [Act.remove 1, Act.flush] ∧
    Act.replace 0 ∉ (maildir_dedup [(0, c3m1), (1, c3m2)] false).2.2 := by
  decide

/-- C3 as amended: in a live pass, the survivor is persisted via `replace`
IF AND ONLY IF the provenance-header merge changed it — a timestamp-only
modification is NOT persisted; every casualty is removed via `remove`
regardless, and `replace` is only ever issued for the survivor. -/
theorem c3_amended (st : EngineBox) (msgs : List (Nat × MaildirMessage))
    (sk : Nat × MaildirMessage) (rest : List (Nat × MaildirMessage))
    (hs : sortByDate msgs = sk :: rest) :
    ((Act.replace sk.1 ∈ (processSet false st msgs).2.2) ↔
       (mergeHeaders
          { sk.2 with date := ((rest.getLast?).map (fun e => e.2.date)).getD sk.2.date }
          rest).2 = true) ∧
    (∀ e ∈ rest, Act.remove e.1 ∈ (processSet false st msgs).2.2) ∧
    (∀ k, Act.replace k ∈ (processSet false st msgs).2.2 → k = sk.1) := by
  obtain ⟨k0, m0⟩ := sk
  simp only [processSet, hs]
  refine ⟨?_, ?_, ?_⟩
  · by_cases hch : (mergeHeaders
        { m0 with date := ((rest.getLast?).map (fun e => e.2.date)).getD m0.date }
        rest).2
    · simp [hch]
    · simp [hch]
  · intro e he
    by_cases hch : (mergeHeaders
        { m0 with date := ((rest.getLast?).map (fun e => e.2.date)).getD m0.date }
        rest).2
    · simp only [hch, if_true, Bool.false_eq_true, if_false, List.mem_append]
      left; right
      exact List.mem_map.mpr ⟨e, he, rfl⟩
    · simp only [hch, Bool.false_eq_true, if_false, List.mem_append]
      left; right
      exact List.mem_map.mpr ⟨e, he, rfl⟩
  · intro k hk
    by_cases hch : (mergeHeaders
        { m0 with date := ((rest.getLast?).map (fun e => e.2.date)).getD m0.date }
        rest).2
    · simp only [hch, if_true, Bool.false_eq_true, if_false, List.mem_append,
        List.mem_singleton, List.mem_map] at hk
      rcases hk with (h1 | h2) | h3
      · exact Act.replace.inj h1
      · rcases h2 with ⟨e, _, he⟩; exact absurd he.symm (by simp)
      · exact absurd h3 (by simp)
    · simp only [hch, Bool.false_eq_true, if_false, List.mem_append,
        List.mem_singleton, List.mem_map, List.not_mem_nil, false_or] at hk
      rcases hk with h2 | h3
      · rcases h2 with ⟨e, _, he⟩; exact absurd he.symm (by simp)
      · exact absurd h3 (by simp)

theorem c3_witness :
    sortByDate [(0, c3m1), (1, c3m2)] = [(0, c3m1), (1, c3m2)] ∧
    (((Act.replace 0 ∈ (processSet false [] [(0, c3m1), (1, c3m2)]).2.2) ↔
        (mergeHeaders
           { c3m1 with
             date := (([(1, c3m2)].getLast?).map (fun e => e.2.date)).getD c3m1.date }
           [(1, c3m2)]).2 = true) ∧
     (∀ e ∈ [(1, c3m2)], Act.remove e.1 ∈ (processSet false [] [(0, c3m1), (1, c3m2)]).2.2) ∧
     (∀ k, Act.replace k ∈ (processSet false [] [(0, c3m1), (1, c3m2)]).2.2 → k = 0)) :=
  ⟨by decide, c3_amended [] [(0, c3m1), (1, c3m2)] (0, c3m1) [(1, c3m2)] (by decide)⟩

/-- C2 counterexample: an identical set with timestamps 1 < 2 < 3 and no
divergent provenance headers.  Exactly one member remains and its body is
the t1 body, but its stored timestamp is 1 (t1), NOT 3 (t3): the in-memory
`set_date` is never persisted because only header merges set `changed`. -/
def c2m1 : MaildirMessage := ⟨[("X-GMAIL-MSGID", "m")], "b", 1, "new", ""⟩

def c2m2 : MaildirMessage := ⟨[("X-GMAIL-MSGID", "m")], "b", 2, "new", ""⟩

def c2m3 : MaildirMessage := ⟨[("X-GMAIL-MSGID", "m")], "b", 3, "new", ""⟩

def c2box : EngineBox := [(0, c2m1), (1, c2m2), (2, c2m3)]

theorem c2_counterexample :
    c2m1.date < c2m2.date ∧ c2m2.date < c2m3.date ∧
    digestOf c2m1 = digestOf c2m2 ∧ digestOf c2m1 = digestOf c2m3 ∧
    msgidOf c2m1 = msgidOf c2m2 ∧ msgidOf c2m1 = msgidOf c2m3 ∧
    (maildir_dedup c2box false).1 = [(0, c2m1)] ∧
    ¬(∀ e ∈ (maildir_dedup c2box false).1, e.2.date = c2m3.date) := by
  decide

/-- C2 as amended: for an identical set with timestamps t1 < t2 < t3
forming the whole mailbox, after a live pass exactly one member remains
(under the t1 key); its body equals the t1 member's body; its timestamp is
t3 when the provenance-header merge changed the survivor (which is then
persisted) and stays t1 otherwise, because a timestamp-only change is not
written back. -/
theorem c2_amended (k1 k2 k3 : Nat) (m1 m2 m3 : MaildirMessage) (mid : String)
    (hk12 : k1 ≠ k2) (hk13 : k1 ≠ k3) (hk23 : k2 ≠ k3)
    (hm1 : msgidOf m1 = some mid) (hm2 : msgidOf m2 = some mid)
    (hm3 : msgidOf m3 = some mid)
    (hd12 : digestOf m1 = digestOf m2) (hd13 : digestOf m1 = digestOf m3)
    (ht12 : m1.date < m2.date) (ht23 : m2.date < m3.date) :
    ∃ m', (maildir_dedup [(k1, m1), (k2, m2), (k3, m3)] false).1 = [(k1, m')] ∧
      m'.body = m1.body ∧
      m'.date = (if (mergeHeaders { m1 with date := m3.date } [(k2, m2), (k3, m3)]).2
                 then m3.date else m1.date) := by
  have hgroups : groupByMsgid [(k1, m1), (k2, m2), (k3, m3)] = [(mid, [k1, k2, k3])] := by
    simp [groupByMsgid, hm1, hm2, hm3, addToGroups]
  have h2 : digestOf m2 = digestOf m1 := hd12.symm
  have h3 : digestOf m3 = digestOf m1 := hd13.symm
  have hfetch : fetchDigestGroups [(k1, m1), (k2, m2), (k3, m3)] [k1, k2, k3]
      = [(digestOf m1, [(k1, m1), (k2, m2), (k3, m3)])] := by
    simp [fetchDigestGroups, assoc, hk12, hk13, hk23, addToGroups, h2, h3]
  have hsort : sortByDate [(k1, m1), (k2, m2), (k3, m3)]
      = [(k1, m1), (k2, m2), (k3, m3)] := by
    simp [sortByDate, insertByDate, le_of_lt ht12, le_of_lt ht23,
      le_of_lt (lt_trans ht12 ht23)]
  have hlast : ([(k2, m2), (k3, m3)] : List (Nat × MaildirMessage)).getLast?
      = some (k3, m3) := rfl
  by_cases hch : (mergeHeaders { m1 with date := m3.date } [(k2, m2), (k3, m3)]).2
  · refine ⟨(mergeHeaders { m1 with date := m3.date } [(k2, m2), (k3, m3)]).1, ?_, ?_, ?_⟩
    · show (maildir_dedup [(k1, m1), (k2, m2), (k3, m3)] false).1 = _
      unfold maildir_dedup
      rw [hgroups]
      simp only [List.foldl_cons, List.foldl_nil]
      unfold dedupGroup
      rw [if_neg (by simp)]
      rw [show (([(k1, m1), (k2, m2), (k3, m3)] : EngineBox),
        ([] : List String), ([] : List Act)).1 = [(k1, m1), (k2, m2), (k3, m3)] from rfl]
      rw [hfetch]
      simp only [List.foldl_cons, List.foldl_nil]
      unfold dedupDigestGroup
      rw [if_neg (by simp)]
      unfold processSet
      rw [hsort]
      simp only [hlast, Option.map_some', Option.getD_some, hch, if_true,
        List.foldl_cons, List.foldl_nil]
      simp [setA, eraseA, hk12, hk13, Ne.symm hk23]
    · exact mergeHeaders_body _ _
    · rw [if_pos hch]
      exact mergeHeaders_date _ _
  · refine ⟨m1, ?_, rfl, ?_⟩
    · show (maildir_dedup [(k1, m1), (k2, m2), (k3, m3)] false).1 = _
      unfold maildir_dedup
      rw [hgroups]
      simp only [List.foldl_cons, List.foldl_nil]
      unfold dedupGroup
      rw [if_neg (by simp)]
      rw [show (([(k1, m1), (k2, m2), (k3, m3)] : EngineBox),
        ([] : List String), ([] : List Act)).1 = [(k1, m1), (k2, m2), (k3, m3)] from rfl]
      rw [hfetch]
      simp only [List.foldl_cons, List.foldl_nil]
      unfold dedupDigestGroup
      rw [if_neg (by simp)]
      unfold processSet
      rw [hsort]
      simp only [hlast, Option.map_some', Option.getD_some, hch,
        List.foldl_cons, List.foldl_nil]
      simp [eraseA, hk12, hk13, Ne.symm hk23]
    · rw [if_neg hch]

/-- Witness for C2 at a concrete identical set carrying a divergent
provenance header (so the merge fires and the t3 branch is exercised). -/
def c2w1 : MaildirMessage :=
  ⟨[("X-GMAIL-MSGID", "m"), ("X-GMAIL-LABELS", "a")], "b", 1, "new", ""⟩

def c2w2 : MaildirMessage :=
  ⟨[("X-GMAIL-MSGID", "m"), ("X-GMAIL-LABELS", "a")], "b", 2, "new", ""⟩

def c2w3 : MaildirMessage :=
  ⟨[("X-GMAIL-MSGID", "m"), ("X-GMAIL-LABELS", "a"), ("X-GMAIL-LABELS", "x")],
   "b", 3, "new", ""⟩

theorem c2_witness :
    ((0 : Nat) ≠ 1 ∧ (0 : Nat) ≠ 2 ∧ (1 : Nat) ≠ 2 ∧
     msgidOf c2w1 = some "m" ∧ msgidOf c2w2 = some "m" ∧ msgidOf c2w3 = some "m" ∧
     digestOf c2w1 = digestOf c2w2 ∧ digestOf c2w1 = digestOf c2w3 ∧
     c2w1.date < c2w2.date ∧ c2w2.date < c2w3.date) ∧
    ∃ m', (maildir_dedup [(0, c2w1), (1, c2w2), (2, c2w3)] false).1 = [(0, m')] ∧
      m'.body = c2w1.body ∧
      m'.date = (if (mergeHeaders { c2w1 with date := c2w3.date } [(1, c2w2), (2, c2w3)]).2
                 then c2w3.date else c2w1.date) :=
  ⟨by decide,
   c2_amended 0 1 2 c2w1 c2w2 c2w3 "m" (by decide) (by decide) (by decide)
     (by decide) (by decide) (by decide) (by decide) (by decide)
     (by decide) (by decide)⟩

/-! ### Dry-run purity (C4): infrastructure -/

theorem addToGroups_join_perm {α β : Type} [DecidableEq α]
    (gs : List (α × List β)) (a : α) (b : β) :
    (((addToGroups gs a b).map (fun g => g.2)).flatten).Perm
      ((gs.map (fun g => g.2)).flatten ++ [b]) := by
  induction gs with
  | nil => simp [addToGroups]
  | cons g r ih =>
      obtain ⟨x, bs⟩ := g
      by_cases hx : x = a
      · subst hx
        simp only [addToGroups, List.map_cons, List.flatten_cons, if_pos rfl, if_true,
          eq_self_iff_true]
        rw [List.append_assoc, List.append_assoc]
        exact List.Perm.append_left bs List.perm_append_comm
      · simp only [addToGroups, if_neg hx, List.map_cons, List.flatten_cons]
        rw [List.append_assoc]
        exact List.Perm.append_left bs ih

theorem groupByMsgid_join_perm (mbox : EngineBox) :
    (((groupByMsgid mbox).map (fun g => g.2)).flatten).Perm
      ((mbox.filter (fun e => (msgidOf e.2).isSome)).map Prod.fst) := by
  suffices h : ∀ (l : EngineBox) (acc : List (String × List Nat)),
      (((l.foldl (fun acc e =>
          match msgidOf e.2 with
          | none => acc
          | some mid => addToGroups acc mid e.1) acc).map (fun g => g.2)).flatten).Perm
        (((acc.map (fun g => g.2)).flatten)
          ++ (l.filter (fun e => (msgidOf e.2).isSome)).map Prod.fst) by
    simpa [groupByMsgid] using h mbox []
  intro l
  induction l with
  | nil => intro acc; simp
  | cons e r ih =>
      intro acc
      cases hm : msgidOf e.2 with
      | none =>
          simp only [List.foldl_cons, hm, List.filter_cons, Option.isSome_none,
            Bool.false_eq_true, if_false]
          exact ih acc
      | some mid =>
          simp only [List.foldl_cons, hm, List.filter_cons, Option.isSome_some, if_true]
          refine (ih _).trans ?_
          have hj := addToGroups_join_perm acc mid e.1
          refine (hj.append_right _).trans ?_
          rw [List.append_assoc]
          simp

theorem groupByMsgid_join_nodup (mbox : EngineBox)
    (hnd : (mbox.map Prod.fst).Nodup) :
    (((groupByMsgid mbox).map (fun g => g.2)).flatten).Nodup := by
  rw [(groupByMsgid_join_perm mbox).nodup_iff]
  exact List.Nodup.sublist ((List.filter_sublist _).map Prod.fst) hnd

theorem insertByDate_perm (x : Nat × MaildirMessage) (l : List (Nat × MaildirMessage)) :
    (insertByDate x l).Perm (x :: l) := by
  induction l with
  | nil => exact List.Perm.refl _
  | cons y r ih =>
      by_cases h : x.2.date ≤ y.2.date
      · simp [insertByDate, h]
      · simp only [insertByDate, if_neg h]
        exact (ih.cons y).trans (List.Perm.swap x y r)

theorem sortByDate_perm (l : List (Nat × MaildirMessage)) :
    (sortByDate l).Perm l := by
  induction l with
  | nil => exact List.Perm.refl _
  | cons x r ih => exact (insertByDate_perm x _).trans (ih.cons x)

theorem eraseFold_frame (rest : List (Nat × MaildirMessage)) (st : EngineBox) (k : Nat)
    (h : ∀ e ∈ rest, e.1 ≠ k) :
    assoc (rest.foldl (fun s e => eraseA s e.1) st) k = assoc st k := by
  induction rest generalizing st with
  | nil => rfl
  | cons e r ih =>
      rw [List.foldl_cons, ih _ (fun e' he' => h e' (List.mem_cons_of_mem _ he')),
        assoc_eraseA_ne _ _ _ (h e (List.mem_cons_self _ _))]

/-- A live pass over one identical set leaves every key outside the set
untouched. -/
theorem processSet_frame (st : EngineBox) (msgs : List (Nat × MaildirMessage)) (k : Nat)
    (hk : ∀ e ∈ msgs, e.1 ≠ k) :
    assoc (processSet false st msgs).1 k = assoc st k := by
  unfold processSet
  cases hs : sortByDate msgs with
  | nil => rfl
  | cons sk rest =>
      obtain ⟨k0, m0⟩ := sk
      have hmem : ∀ e ∈ (k0, m0) :: rest, e.1 ≠ k := by
        intro e he
        exact hk e ((sortByDate_perm msgs).subset (hs ▸ he))
      have hrest : ∀ e ∈ rest, e.1 ≠ k :=
        fun e he => hmem e (List.mem_cons_of_mem _ he)
      simp only [Bool.false_eq_true, if_false]
      by_cases hch : (mergeHeaders
          { m0 with date := ((rest.getLast?).map (fun e => e.2.date)).getD m0.date }
          rest).2
      · simp only [hch, if_true]
        rw [eraseFold_frame _ _ _ hrest,
          assoc_setA_ne _ _ _ _ (hmem (k0, m0) (List.mem_cons_self _ _))]
      · simp only [hch, Bool.false_eq_true, if_false]
        exact eraseFold_frame _ _ _ hrest

/-- The report emitted for one identical set depends only on the set, not
on the mailbox state or the dry-run flag. -/
theorem processSet_rep_eq (d : Bool) (st st' : EngineBox)
    (msgs : List (Nat × MaildirMessage)) :
    (processSet d st msgs).2.1 = (processSet false st' msgs).2.1 := by
  unfold processSet
  cases hs : sortByDate msgs with
  | nil => rfl
  | cons sk rest => cases d <;> rfl

theorem processSet_dry (st : EngineBox) (msgs : List (Nat × MaildirMessage)) :
    (processSet true st msgs).1 = st ∧ (processSet true st msgs).2.2 = [] := by
  unfold processSet
  cases sortByDate msgs with
  | nil => exact ⟨rfl, rfl⟩
  | cons sk rest => exact ⟨rfl, rfl⟩

theorem dedupDigestGroup_dry (acc : EngineBox × List String × List Act)
    (dg : (List (String × String) × String) × List (Nat × MaildirMessage)) :
    (dedupDigestGroup true acc dg).1 = acc.1 ∧
    (dedupDigestGroup true acc dg).2.2 = acc.2.2 := by
  unfold dedupDigestGroup
  by_cases h : dg.2.length < 2
  · rw [if_pos h]; exact ⟨rfl, rfl⟩
  · rw [if_neg h]
    refine ⟨(processSet_dry acc.1 dg.2).1, ?_⟩
    show acc.2.2 ++ (processSet true acc.1 dg.2).2.2 = acc.2.2
    rw [(processSet_dry acc.1 dg.2).2, List.append_nil]

theorem foldl_ddg_dry (dgs : List ((List (String × String) × String) × List (Nat × MaildirMessage)))
    (acc : EngineBox × List String × List Act) :
    ((dgs.foldl (dedupDigestGroup true) acc).1 = acc.1 ∧
     (dgs.foldl (dedupDigestGroup true) acc).2.2 = acc.2.2) := by
  induction dgs generalizing acc with
  | nil => exact ⟨rfl, rfl⟩
  | cons dg r ih =>
      rw [List.foldl_cons]
      refine ⟨?_, ?_⟩
      · rw [(ih _).1, (dedupDigestGroup_dry acc dg).1]
      · rw [(ih _).2, (dedupDigestGroup_dry acc dg).2]

theorem dedupGroup_dry (acc : EngineBox × List String × List Act)
    (g : String × List Nat) :
    (dedupGroup true acc g).1 = acc.1 ∧ (dedupGroup true acc g).2.2 = acc.2.2 := by
  unfold dedupGroup
  by_cases h : g.2.length < 2
  · rw [if_pos h]; exact ⟨rfl, rfl⟩
  · rw [if_neg h]; exact foldl_ddg_dry _ acc

theorem foldl_dg_dry (groups : List (String × List Nat))
    (acc : EngineBox × List String × List Act) :
    ((groups.foldl (dedupGroup true) acc).1 = acc.1 ∧
     (groups.foldl (dedupGroup true) acc).2.2 = acc.2.2) := by
  induction groups generalizing acc with
  | nil => exact ⟨rfl, rfl⟩
  | cons g r ih =>
      rw [List.foldl_cons]
      refine ⟨?_, ?_⟩
      · rw [(ih _).1, (dedupGroup_dry acc g).1]
      · rw [(ih _).2, (dedupGroup_dry acc g).2]

theorem fetchDG_go_congr (st st' : EngineBox) (ks : List Nat)
    (acc : List ((List (String × String) × String) × List (Nat × MaildirMessage)))
    (h : ∀ k ∈ ks, assoc st k = assoc st' k) :
    ks.foldl (fun acc k =>
      match assoc st k with
      | none => acc
      | some m => addToGroups acc (digestOf m) (k, m)) acc
    = ks.foldl (fun acc k =>
      match assoc st' k with
      | none => acc
      | some m => addToGroups acc (digestOf m) (k, m)) acc := by
  induction ks generalizing acc with
  | nil => rfl
  | cons k r ih =>
      rw [List.foldl_cons, List.foldl_cons, h k (List.mem_cons_self _ _)]
      exact ih _ (fun k' hk' => h k' (List.mem_cons_of_mem _ hk'))

/-- The digest groups depend on the mailbox state only through the keys
being fetched. -/
theorem fetchDigestGroups_congr (st st' : EngineBox) (keys : List Nat)
    (h : ∀ k ∈ keys, assoc st k = assoc st' k) :
    fetchDigestGroups st keys = fetchDigestGroups st' keys :=
  fetchDG_go_congr st st' keys [] h

theorem addToGroups_mem {α β : Type} [DecidableEq α]
    (gs : List (α × List β)) (a : α) (b : β) (g : α × List β)
    (hg : g ∈ addToGroups gs a b) (x : β) (hx : x ∈ g.2) :
    (∃ g' ∈ gs, x ∈ g'.2) ∨ x = b := by
  induction gs with
  | nil =>
      simp only [addToGroups, List.mem_singleton] at hg
      subst hg
      simp only [List.mem_singleton] at hx
      right; exact hx
  | cons g0 r ih =>
      obtain ⟨x0, bs⟩ := g0
      by_cases hx0 : x0 = a
      · subst hx0
        rw [show addToGroups ((x0, bs) :: r) x0 b = (x0, bs ++ [b]) :: r from by
          simp [addToGroups]] at hg
        rcases List.mem_cons.mp hg with hg1 | hg2
        · subst hg1
          simp only [List.mem_append, List.mem_singleton] at hx
          rcases hx with hx1 | hx2
          · left; exact ⟨(x0, bs), List.mem_cons_self _ _, hx1⟩
          · right; exact hx2
        · left; exact ⟨g, List.mem_cons_of_mem _ hg2, hx⟩
      · rw [show addToGroups ((x0, bs) :: r) a b = (x0, bs) :: addToGroups r a b from by
          simp [addToGroups, hx0]] at hg
        rcases List.mem_cons.mp hg with hg1 | hg2
        · subst hg1
          left; exact ⟨(x0, bs), List.mem_cons_self _ _, hx⟩
        · rcases ih hg2 with ⟨g', hg', hx'⟩ | hb
          · left; exact ⟨g', List.mem_cons_of_mem _ hg', hx'⟩
          · right; exact hb

theorem fetchDG_go_mem (st : EngineBox) (P : Nat × MaildirMessage → Prop)
    (ks : List Nat)
    (acc : List ((List (String × String) × String) × List (Nat × MaildirMessage)))
    (hks : ∀ k ∈ ks, ∀ m, assoc st k = some m → P (k, m))
    (hacc : ∀ g ∈ acc, ∀ x ∈ g.2, P x) :
    ∀ g ∈ ks.foldl (fun acc k =>
        match assoc st k with
        | none => acc
        | some m => addToGroups acc (digestOf m) (k, m)) acc,
      ∀ x ∈ g.2, P x := by
  induction ks generalizing acc with
  | nil => exact hacc
  | cons k r ih =>
      rw [List.foldl_cons]
      cases hm : assoc st k with
      | none =>
          exact ih _ (fun k' hk' => hks k' (List.mem_cons_of_mem _ hk')) hacc
      | some m =>
          apply ih _ (fun k' hk' => hks k' (List.mem_cons_of_mem _ hk'))
          intro g hg x hx
          rcases addToGroups_mem _ _ _ g hg x hx with ⟨g', hg', hx'⟩ | hb
          · exact hacc g' hg' x hx'
          · subst hb
            exact hks k (List.mem_cons_self _ _) m hm

/-- Every member of a digest group is one of the fetched keys, carrying
the message the current mailbox holds for it. -/
theorem fetchDigestGroups_mem (st : EngineBox) (keys : List Nat)
    (dg : (List (String × String) × String) × List (Nat × MaildirMessage))
    (hdg : dg ∈ fetchDigestGroups st keys)
    (e : Nat × MaildirMessage) (he : e ∈ dg.2) :
    e.1 ∈ keys ∧ assoc st e.1 = some e.2 := by
  have := fetchDG_go_mem st (fun x => x.1 ∈ keys ∧ assoc st x.1 = some x.2) keys []
    (fun k hk m hm => ⟨hk, hm⟩) (by intro g hg; simp at hg) dg hdg e he
  exact this

theorem inner_rep_eq
    (dgs : List ((List (String × String) × String) × List (Nat × MaildirMessage)))
    (accL accD : EngineBox × List String × List Act)
    (hrep : accL.2.1 = accD.2.1) :
    (dgs.foldl (dedupDigestGroup false) accL).2.1
      = (dgs.foldl (dedupDigestGroup true) accD).2.1 := by
  induction dgs generalizing accL accD with
  | nil => exact hrep
  | cons dg r ih =>
      rw [List.foldl_cons, List.foldl_cons]
      apply ih
      unfold dedupDigestGroup
      by_cases h : dg.2.length < 2
      · rw [if_pos h, if_pos h]; exact hrep
      · rw [if_neg h, if_neg h]
        show accL.2.1 ++ (processSet false accL.1 dg.2).2.1
          = accD.2.1 ++ (processSet true accD.1 dg.2).2.1
        rw [hrep, processSet_rep_eq true accD.1 accL.1 dg.2]

theorem inner_state_frame
    (dgs : List ((List (String × String) × String) × List (Nat × MaildirMessage)))
    (acc : EngineBox × List String × List Act) (k : Nat)
    (hk : ∀ dg ∈ dgs, ∀ e ∈ dg.2, e.1 ≠ k) :
    assoc ((dgs.foldl (dedupDigestGroup false) acc).1) k = assoc acc.1 k := by
  induction dgs generalizing acc with
  | nil => rfl
  | cons dg r ih =>
      rw [List.foldl_cons,
        ih _ (fun dg' hdg' => hk dg' (List.mem_cons_of_mem _ hdg'))]
      unfold dedupDigestGroup
      by_cases h : dg.2.length < 2
      · rw [if_pos h]
      · rw [if_neg h]
        show assoc (processSet false acc.1 dg.2).1 k = assoc acc.1 k
        exact processSet_frame _ _ _ (hk dg (List.mem_cons_self _ _))

theorem outer_rep_eq (groups : List (String × List Nat)) (mbox : EngineBox) :
    ∀ (accL accD : EngineBox × List String × List Act),
    accD.1 = mbox →
    (∀ k ∈ (groups.map (fun g => g.2)).flatten, assoc accL.1 k = assoc mbox k) →
    ((groups.map (fun g => g.2)).flatten).Nodup →
    accL.2.1 = accD.2.1 →
    (groups.foldl (dedupGroup false) accL).2.1
      = (groups.foldl (dedupGroup true) accD).2.1 := by
  induction groups with
  | nil => intro accL accD _ _ _ hrep; exact hrep
  | cons g gs ih =>
      intro accL accD hstD hagree hnd hrep
      rw [List.foldl_cons, List.foldl_cons]
      rw [show ((g :: gs).map (fun x => x.2)).flatten
          = g.2 ++ ((gs.map (fun x => x.2)).flatten) by simp] at hagree hnd
      have hnd' := List.nodup_append.mp hnd
      apply ih
      · rw [(dedupGroup_dry accD g).1, hstD]
      · intro k hkmem
        unfold dedupGroup
        by_cases hlen : g.2.length < 2
        · rw [if_pos hlen]
          exact hagree k (List.mem_append_right _ hkmem)
        · rw [if_neg hlen]
          have hfr : ∀ dg ∈ fetchDigestGroups accL.1 g.2, ∀ e ∈ dg.2, e.1 ≠ k := by
            intro dg hdg e he hek
            exact hnd'.2.2 (hek ▸ (fetchDigestGroups_mem accL.1 g.2 dg hdg e he).1) hkmem
          rw [inner_state_frame _ _ _ hfr]
          exact hagree k (List.mem_append_right _ hkmem)
      · exact hnd'.2.1
      · unfold dedupGroup
        by_cases hlen : g.2.length < 2
        · rw [if_pos hlen, if_pos hlen]; exact hrep
        · rw [if_neg hlen, if_neg hlen]
          have hfetch : fetchDigestGroups accL.1 g.2 = fetchDigestGroups accD.1 g.2 := by
            apply fetchDigestGroups_congr
            intro k hk
            rw [hagree k (List.mem_append_left _ hk), hstD]
          rw [hfetch]
          exact inner_rep_eq _ accL accD hrep

/-- C4: with distinct keys (as a real Maildir enumeration yields), a
dry-run pass performs zero store mutations — final mailbox identical,
no `replace`/`remove`/`flush` issued — while emitting report text
identical to a live run on the same initial state. -/
theorem c4_dryrun_purity (mbox : EngineBox) (hnd : (mbox.map Prod.fst).Nodup) :
    (maildir_dedup mbox true).1 = mbox ∧
    (maildir_dedup mbox true).2.2 = [] ∧
    (maildir_dedup mbox true).2.1 = (maildir_dedup mbox false).2.1 := by
  refine ⟨(foldl_dg_dry (groupByMsgid mbox) (mbox, [], [])).1,
    (foldl_dg_dry (groupByMsgid mbox) (mbox, [], [])).2, ?_⟩
  exact (outer_rep_eq (groupByMsgid mbox) mbox (mbox, [], []) (mbox, [], []) rfl
    (fun k _ => rfl) (groupByMsgid_join_nodup mbox hnd) rfl).symm

theorem c4_witness :
    ((c2box.map Prod.fst).Nodup) ∧
    ((maildir_dedup c2box true).1 = c2box ∧
     (maildir_dedup c2box true).2.2 = [] ∧
     (maildir_dedup c2box true).2.1 = (maildir_dedup c2box false).2.1) :=
  ⟨by decide, c4_dryrun_purity c2box (by decide)⟩

/-! ### Idempotence (C8): infrastructure -/

theorem assoc_eraseA_none {α β : Type} [DecidableEq α]
    (l : List (α × β)) (a a' : α) (h : assoc l a' = none) :
    assoc (eraseA l a) a' = none := by
  by_cases hk : a = a'
  · subst hk; exact assoc_eraseA_self l a
  · rw [assoc_eraseA_ne l a a' hk]; exact h

theorem eraseFold_preserves_none (rest : List (Nat × MaildirMessage))
    (st : EngineBox) (k : Nat) (h : assoc st k = none) :
    assoc (rest.foldl (fun s x => eraseA s x.1) st) k = none := by
  induction rest generalizing st with
  | nil => exact h
  | cons x r ih =>
      rw [List.foldl_cons]
      exact ih _ (assoc_eraseA_none _ _ _ h)

theorem eraseFold_none (rest : List (Nat × MaildirMessage)) (st : EngineBox)
    (e : Nat × MaildirMessage) (he : e ∈ rest) :
    assoc (rest.foldl (fun s x => eraseA s x.1) st) e.1 = none := by
  induction rest generalizing st with
  | nil => simp at he
  | cons x r ih =>
      rcases List.mem_cons.mp he with h1 | h2
      · subst h1
        rw [List.foldl_cons]
        exact eraseFold_preserves_none r _ _ (assoc_eraseA_self _ _)
      · rw [List.foldl_cons]
        exact ih _ h2

theorem addToGroups_mem_key {α β : Type} [DecidableEq α]
    (gs : List (α × List β)) (a : α) (b : β) (g : α × List β)
    (hg : g ∈ addToGroups gs a b) (x : β) (hx : x ∈ g.2) :
    (∃ g' ∈ gs, g'.1 = g.1 ∧ x ∈ g'.2) ∨ (x = b ∧ g.1 = a) := by
  induction gs with
  | nil =>
      simp only [addToGroups, List.mem_singleton] at hg
      subst hg
      simp only [List.mem_singleton] at hx
      right; exact ⟨hx, rfl⟩
  | cons g0 r ih =>
      obtain ⟨x0, bs⟩ := g0
      by_cases hx0 : x0 = a
      · subst hx0
        rw [show addToGroups ((x0, bs) :: r) x0 b = (x0, bs ++ [b]) :: r from by
          simp [addToGroups]] at hg
        rcases List.mem_cons.mp hg with hg1 | hg2
        · subst hg1
          simp only [List.mem_append, List.mem_singleton] at hx
          rcases hx with hx1 | hx2
          · left; exact ⟨(x0, bs), List.mem_cons_self _ _, rfl, hx1⟩
          · right; exact ⟨hx2, rfl⟩
        · left; exact ⟨g, List.mem_cons_of_mem _ hg2, rfl, hx⟩
      · rw [show addToGroups ((x0, bs) :: r) a b = (x0, bs) :: addToGroups r a b from by
          simp [addToGroups, hx0]] at hg
        rcases List.mem_cons.mp hg with hg1 | hg2
        · subst hg1
          left; exact ⟨(x0, bs), List.mem_cons_self _ _, rfl, hx⟩
        · rcases ih hg2 with ⟨g', hg', hkey, hx'⟩ | hb
          · left; exact ⟨g', List.mem_cons_of_mem _ hg', hkey, hx'⟩
          · right; exact hb

theorem addToGroups_self {α β : Type} [DecidableEq α]
    (gs : List (α × List β)) (a : α) (b : β) :
    ∃ l, (a, l) ∈ addToGroups gs a b ∧ b ∈ l := by
  induction gs with
  | nil => exact ⟨[b], by simp [addToGroups], by simp⟩
  | cons g0 r ih =>
      obtain ⟨x0, bs⟩ := g0
      by_cases hx0 : x0 = a
      · subst hx0
        refine ⟨bs ++ [b], ?_, by simp⟩
        rw [show addToGroups ((x0, bs) :: r) x0 b = (x0, bs ++ [b]) :: r from by
          simp [addToGroups]]
        exact List.mem_cons_self _ _
      · rcases ih with ⟨l, hl, hb⟩
        refine ⟨l, ?_, hb⟩
        rw [show addToGroups ((x0, bs) :: r) a b = (x0, bs) :: addToGroups r a b from by
          simp [addToGroups, hx0]]
        exact List.mem_cons_of_mem _ hl

theorem addToGroups_mono {α β : Type} [DecidableEq α]
    (gs : List (α × List β)) (a : α) (b : β) (x : α) (l : List β) (y : β)
    (hl : (x, l) ∈ gs) (hy : y ∈ l) :
    ∃ l', (x, l') ∈ addToGroups gs a b ∧ y ∈ l' := by
  induction gs with
  | nil => simp at hl
  | cons g0 r ih =>
      obtain ⟨x0, bs⟩ := g0
      by_cases hx0 : x0 = a
      · subst hx0
        rw [show addToGroups ((x0, bs) :: r) x0 b = (x0, bs ++ [b]) :: r from by
          simp [addToGroups]]
        rcases List.mem_cons.mp hl with hl1 | hl2
        · rw [Prod.mk.injEq] at hl1
          obtain ⟨rfl, rfl⟩ := hl1
          exact ⟨_, List.mem_cons_self _ _, List.mem_append_left _ hy⟩
        · exact ⟨l, List.mem_cons_of_mem _ hl2, hy⟩
      · rw [show addToGroups ((x0, bs) :: r) a b = (x0, bs) :: addToGroups r a b from by
          simp [addToGroups, hx0]]
        rcases List.mem_cons.mp hl with hl1 | hl2
        · rw [Prod.mk.injEq] at hl1
          obtain ⟨rfl, rfl⟩ := hl1
          exact ⟨_, List.mem_cons_self _ _, hy⟩
        · rcases ih hl2 with ⟨l', hl', hy'⟩
          exact ⟨l', List.mem_cons_of_mem _ hl', hy'⟩

theorem addToGroups_fst_mem {α β : Type} [DecidableEq α]
    (gs : List (α × List β)) (a : α) (b : β) (y : α)
    (hy : y ∈ (addToGroups gs a b).map Prod.fst) :
    y ∈ gs.map Prod.fst ∨ y = a := by
  induction gs with
  | nil =>
      simp only [addToGroups, List.map_cons, List.map_nil, List.mem_singleton] at hy
      right; exact hy
  | cons g0 r ih =>
      obtain ⟨x0, bs⟩ := g0
      by_cases hx0 : x0 = a
      · subst hx0
        rw [show addToGroups ((x0, bs) :: r) x0 b = (x0, bs ++ [b]) :: r from by
          simp [addToGroups]] at hy
        simp only [List.map_cons, List.mem_cons] at hy
        rcases hy with h1 | h2
        · right; exact h1
        · left; simp [h2]
      · rw [show addToGroups ((x0, bs) :: r) a b = (x0, bs) :: addToGroups r a b from by
          simp [addToGroups, hx0]] at hy
        simp only [List.map_cons, List.mem_cons] at hy
        rcases hy with h1 | h2
        · left; simp [h1]
        · rcases ih h2 with h3 | h4
          · left; simp [h3]
          · right; exact h4

theorem addToGroups_fst_nodup {α β : Type} [DecidableEq α]
    (gs : List (α × List β)) (a : α) (b : β)
    (h : (gs.map Prod.fst).Nodup) :
    ((addToGroups gs a b).map Prod.fst).Nodup := by
  induction gs with
  | nil => simp [addToGroups]
  | cons g0 r ih =>
      obtain ⟨x0, bs⟩ := g0
      simp only [List.map_cons, List.nodup_cons] at h
      by_cases hx0 : x0 = a
      · subst hx0
        rw [show addToGroups ((x0, bs) :: r) x0 b = (x0, bs ++ [b]) :: r from by
          simp [addToGroups]]
        simp only [List.map_cons, List.nodup_cons]
        exact h
      · rw [show addToGroups ((x0, bs) :: r) a b = (x0, bs) :: addToGroups r a b from by
          simp [addToGroups, hx0]]
        simp only [List.map_cons, List.nodup_cons]
        refine ⟨?_, ih h.2⟩
        intro hmem
        rcases addToGroups_fst_mem r a b x0 hmem with h1 | h2
        · exact h.1 h1
        · exact hx0 h2

theorem groupByMsgid_go_mem (P : String → Nat → Prop) (l : EngineBox)
    (acc : List (String × List Nat))
    (hl : ∀ e ∈ l, ∀ mid, msgidOf e.2 = some mid → P mid e.1)
    (hacc : ∀ g ∈ acc, ∀ k ∈ g.2, P g.1 k) :
    ∀ g ∈ l.foldl (fun acc e =>
        match msgidOf e.2 with
        | none => acc
        | some mid => addToGroups acc mid e.1) acc,
      ∀ k ∈ g.2, P g.1 k := by
  induction l generalizing acc with
  | nil => exact hacc
  | cons e r ih =>
      rw [List.foldl_cons]
      cases hm : msgidOf e.2 with
      | none => exact ih _ (fun e' he' => hl e' (List.mem_cons_of_mem _ he')) hacc
      | some mid =>
          apply ih _ (fun e' he' => hl e' (List.mem_cons_of_mem _ he'))
          intro g hg k hk
          rcases addToGroups_mem_key _ _ _ g hg k hk with ⟨g', hg', hkey, hk'⟩ | ⟨hb, hkeyg⟩
          · exact hkey ▸ hacc g' hg' k hk'
          · subst hb
            rw [hkeyg]
            exact hl e (List.mem_cons_self _ _) mid hm

/-- Every key of an identifier group is the key of a mailbox entry whose
`X-GMAIL-MSGID` header value is the group's identifier. -/
theorem groupByMsgid_mem (mbox : EngineBox) (g : String × List Nat)
    (hg : g ∈ groupByMsgid mbox) (k : Nat) (hk : k ∈ g.2) :
    ∃ m, (k, m) ∈ mbox ∧ msgidOf m = some g.1 := by
  refine groupByMsgid_go_mem (fun mid k => ∃ m, (k, m) ∈ mbox ∧ msgidOf m = some mid)
    mbox [] ?_ ?_ g hg k hk
  · intro e he mid hm
    exact ⟨e.2, he, hm⟩
  · intro g hg
    simp at hg

/-- Every mailbox entry carrying an identifier lands in that identifier's
group. -/
theorem groupByMsgid_complete (mbox : EngineBox) (k : Nat) (m : MaildirMessage)
    (mid : String) (hmem : (k, m) ∈ mbox) (hmid : msgidOf m = some mid) :
    ∃ ks, (mid, ks) ∈ groupByMsgid mbox ∧ k ∈ ks := by
  suffices h : ∀ (l : EngineBox) (acc : List (String × List Nat)),
      ((k, m) ∈ l ∨ ∃ ks, (mid, ks) ∈ acc ∧ k ∈ ks) →
      ∃ ks, (mid, ks) ∈ l.foldl (fun acc e =>
          match msgidOf e.2 with
          | none => acc
          | some mid => addToGroups acc mid e.1) acc ∧ k ∈ ks by
    exact h mbox [] (Or.inl hmem)
  intro l
  induction l with
  | nil =>
      intro acc h
      rcases h with h1 | h2
      · simp at h1
      · exact h2
  | cons e r ih =>
      intro acc h
      rw [List.foldl_cons]
      rcases h with h1 | h2
      · rcases List.mem_cons.mp h1 with he | hr
        · rw [← he, hmid]
          rcases addToGroups_self acc mid k with ⟨ks, hks, hkk⟩
          exact ih _ (Or.inr ⟨ks, hks, hkk⟩)
        · exact ih _ (Or.inl hr)
      · rcases h2 with ⟨ks, hks, hkk⟩
        cases hm2 : msgidOf e.2 with
        | none => exact ih _ (Or.inr ⟨ks, hks, hkk⟩)
        | some mid' =>
            rcases addToGroups_mono acc mid' e.1 mid ks k hks hkk with ⟨ks', hks', hkk'⟩
            exact ih _ (Or.inr ⟨ks', hks', hkk'⟩)

theorem groupByMsgid_fst_nodup (mbox : EngineBox) :
    ((groupByMsgid mbox).map Prod.fst).Nodup := by
  suffices h : ∀ (l : EngineBox) (acc : List (String × List Nat)),
      (acc.map Prod.fst).Nodup →
      ((l.foldl (fun acc e =>
          match msgidOf e.2 with
          | none => acc
          | some mid => addToGroups acc mid e.1) acc).map Prod.fst).Nodup by
    exact h mbox [] List.nodup_nil
  intro l
  induction l with
  | nil => intro acc h; exact h
  | cons e r ih =>
      intro acc h
      rw [List.foldl_cons]
      cases hm : msgidOf e.2 with
      | none => exact ih _ h
      | some mid => exact ih _ (addToGroups_fst_nodup _ _ _ h)

theorem fetchDG_go_digest (st : EngineBox) (ks : List Nat)
    (acc : List ((List (String × String) × String) × List (Nat × MaildirMessage)))
    (hacc : ∀ g ∈ acc, ∀ e ∈ g.2, digestOf e.2 = g.1) :
    ∀ g ∈ ks.foldl (fun acc k =>
        match assoc st k with
        | none => acc
        | some m => addToGroups acc (digestOf m) (k, m)) acc,
      ∀ e ∈ g.2, digestOf e.2 = g.1 := by
  induction ks generalizing acc with
  | nil => exact hacc
  | cons k r ih =>
      rw [List.foldl_cons]
      cases hm : assoc st k with
      | none => exact ih _ hacc
      | some m =>
          apply ih
          intro g hg e he
          rcases addToGroups_mem_key _ _ _ g hg e he with ⟨g', hg', hkey, he'⟩ | ⟨hb, hkeyg⟩
          · exact hkey ▸ hacc g' hg' e he'
          · subst hb
            rw [hkeyg]

/-- Every member of a digest group hashes to the group's digest. -/
theorem fetchDigestGroups_digest (st : EngineBox) (keys : List Nat)
    (dg : (List (String × String) × String) × List (Nat × MaildirMessage))
    (hdg : dg ∈ fetchDigestGroups st keys) :
    ∀ e ∈ dg.2, digestOf e.2 = dg.1 := by
  refine fetchDG_go_digest st keys [] ?_ dg hdg
  intro g hg
  simp at hg

/-- Every fetched key with an entry appears in the digest group of its
message's digest. -/
theorem fetchDG_complete (st : EngineBox) (ks : List Nat) (k : Nat)
    (m : MaildirMessage) (hk : k ∈ ks) (hm : assoc st k = some m) :
    ∃ l, (digestOf m, l) ∈ fetchDigestGroups st ks ∧ (k, m) ∈ l := by
  suffices h : ∀ (l' : List Nat)
      (acc : List ((List (String × String) × String) × List (Nat × MaildirMessage))),
      (k ∈ l' ∨ ∃ l, (digestOf m, l) ∈ acc ∧ (k, m) ∈ l) →
      ∃ l, (digestOf m, l) ∈ l'.foldl (fun acc k =>
          match assoc st k with
          | none => acc
          | some m => addToGroups acc (digestOf m) (k, m)) acc ∧ (k, m) ∈ l by
    exact h ks [] (Or.inl hk)
  intro l'
  induction l' with
  | nil =>
      intro acc h
      rcases h with h1 | h2
      · simp at h1
      · exact h2
  | cons k' r ih =>
      intro acc h
      rw [List.foldl_cons]
      rcases h with h1 | h2
      · rcases List.mem_cons.mp h1 with he | hr
        · subst he
          rw [hm]
          rcases addToGroups_self acc (digestOf m) (k, m) with ⟨l, hl, hkk⟩
          exact ih _ (Or.inr ⟨l, hl, hkk⟩)
        · exact ih _ (Or.inl hr)
      · rcases h2 with ⟨l, hl, hkk⟩
        cases hm2 : assoc st k' with
        | none => exact ih _ (Or.inr ⟨l, hl, hkk⟩)
        | some m' =>
            rcases addToGroups_mono acc (digestOf m') (k', m') (digestOf m) l (k, m)
              hl hkk with ⟨l2, hl2, hkk2⟩
            exact ih _ (Or.inr ⟨l2, hl2, hkk2⟩)

theorem fetchDG_fst_nodup (st : EngineBox) (ks : List Nat) :
    ((fetchDigestGroups st ks).map Prod.fst).Nodup := by
  suffices h : ∀ (l : List Nat)
      (acc : List ((List (String × String) × String) × List (Nat × MaildirMessage))),
      (acc.map Prod.fst).Nodup →
      ((l.foldl (fun acc k =>
          match assoc st k with
          | none => acc
          | some m => addToGroups acc (digestOf m) (k, m)) acc).map Prod.fst).Nodup by
    exact h ks [] List.nodup_nil
  intro l
  induction l with
  | nil => intro acc h; exact h
  | cons k r ih =>
      intro acc h
      rw [List.foldl_cons]
      cases hm : assoc st k with
      | none => exact ih _ h
      | some m => exact ih _ (addToGroups_fst_nodup _ _ _ h)

theorem fetchDG_join_perm (st : EngineBox) (ks : List Nat) :
    ((((fetchDigestGroups st ks).map (fun g => g.2)).flatten)).Perm
      (ks.filterMap (fun k => (assoc st k).map (fun m => (k, m)))) := by
  suffices h : ∀ (l : List Nat)
      (acc : List ((List (String × String) × String) × List (Nat × MaildirMessage))),
      (((l.foldl (fun acc k =>
          match assoc st k with
          | none => acc
          | some m => addToGroups acc (digestOf m) (k, m)) acc).map (fun g => g.2)).flatten).Perm
        (((acc.map (fun g => g.2)).flatten)
          ++ l.filterMap (fun k => (assoc st k).map (fun m => (k, m)))) by
    simpa [fetchDigestGroups] using h ks []
  intro l
  induction l with
  | nil => intro acc; simp
  | cons k r ih =>
      intro acc
      cases hm : assoc st k with
      | none =>
          rw [List.foldl_cons, List.filterMap_cons, hm]
          exact ih acc
      | some m =>
          rw [List.foldl_cons, List.filterMap_cons, hm]
          refine (ih _).trans ?_
          refine ((addToGroups_join_perm acc (digestOf m) (k, m)).append_right _).trans ?_
          rw [List.append_assoc]
          simp

theorem filterMap_entry_keys (st : EngineBox) (ks : List Nat) :
    (ks.filterMap (fun k => (assoc st k).map (fun m => (k, m)))).map Prod.fst
      = ks.filter (fun k => (assoc st k).isSome) := by
  induction ks with
  | nil => rfl
  | cons k r ih =>
      rw [List.filterMap_cons, List.filter_cons]
      cases hm : assoc st k with
      | none => simp [ih]
      | some m => simp [ih]

theorem fetchDG_member_keys_nodup (st : EngineBox) (ks : List Nat) (h : ks.Nodup) :
    (((((fetchDigestGroups st ks).map (fun g => g.2)).flatten)).map Prod.fst).Nodup := by
  rw [((fetchDG_join_perm st ks).map Prod.fst).nodup_iff, filterMap_entry_keys]
  exact List.Nodup.sublist (List.filter_sublist _) h

theorem fetchDG_dg_keys_nodup (st : EngineBox) (ks : List Nat)
    (dg : (List (String × String) × String) × List (Nat × MaildirMessage))
    (h : ks.Nodup) (hdg : dg ∈ fetchDigestGroups st ks) :
    (dg.2.map Prod.fst).Nodup := by
  have hsub : dg.2.Sublist (((fetchDigestGroups st ks).map (fun g => g.2)).flatten) :=
    List.sublist_flatten_of_mem (List.mem_map.mpr ⟨dg, hdg, rfl⟩)
  exact List.Nodup.sublist (hsub.map Prod.fst) (fetchDG_member_keys_nodup st ks h)

/-! Merging only appends exactly-named provenance pairs, so it changes
neither the digest nor the identifier of the survivor. -/

theorem mergeFold_headers_ext (ps : List (String × String))
    (acc : MaildirMessage × Bool) :
    ∃ extra, (ps.foldl mergeOne acc).1.headers = acc.1.headers ++ extra ∧
      ∀ kv ∈ extra, kv.1 ∈ provNamesExact := by
  induction ps generalizing acc with
  | nil => exact ⟨[], by simp, by simp⟩
  | cons p r ih =>
      rw [List.foldl_cons]
      rcases ih (mergeOne acc p) with ⟨extra, hex, hprov⟩
      rcases mergeOne_headers acc p with h1 | h2
      · exact ⟨extra, by rw [hex, h1], hprov⟩
      · refine ⟨[p] ++ extra, ?_, ?_⟩
        · rw [hex, h2.1, List.append_assoc]
        · intro kv hkv
          rcases List.mem_append.mp hkv with hk1 | hk2
          · rw [List.mem_singleton.mp hk1]
            exact h2.2.2
          · exact hprov kv hk2

theorem mergeHeaders_headers_ext (nm : MaildirMessage)
    (rest : List (Nat × MaildirMessage)) :
    ∃ extra, (mergeHeaders nm rest).1.headers = nm.headers ++ extra ∧
      ∀ kv ∈ extra, kv.1 ∈ provNamesExact := by
  suffices h : ∀ (l : List (Nat × MaildirMessage)) (acc : MaildirMessage × Bool),
      ∃ extra, ((l.foldl (fun a e => e.2.headers.foldl mergeOne a) acc).1.headers
        = acc.1.headers ++ extra) ∧ ∀ kv ∈ extra, kv.1 ∈ provNamesExact by
    exact h rest (nm, false)
  intro l
  induction l with
  | nil => intro acc; exact ⟨[], by simp, by simp⟩
  | cons e r ih =>
      intro acc
      rw [List.foldl_cons]
      rcases mergeFold_headers_ext e.2.headers acc with ⟨e1, he1, hp1⟩
      rcases ih (e.2.headers.foldl mergeOne acc) with ⟨e2, he2, hp2⟩
      refine ⟨e1 ++ e2, ?_, ?_⟩
      · rw [he2, he1, List.append_assoc]
      · intro kv hkv
        rcases List.mem_append.mp hkv with h1 | h2
        · exact hp1 kv h1
        · exact hp2 kv h2

theorem prov_exact_lower : ∀ s ∈ provNamesExact, lowerName s ∈ provNamesLower := by
  decide

theorem stripProv_append (h1 h2 : List (String × String)) :
    stripProv (h1 ++ h2) = stripProv h1 ++ stripProv h2 :=
  List.filter_append _ _

theorem stripProv_cons (kv : String × String) (r : List (String × String)) :
    stripProv (kv :: r) = if lowerName kv.1 ∉ provNamesLower
      then kv :: stripProv r else stripProv r := by
  by_cases h : lowerName kv.1 ∉ provNamesLower
  · simp [stripProv, List.filter_cons, h]
  · simp [stripProv, List.filter_cons, h]

theorem stripProv_extra (extra : List (String × String))
    (h : ∀ kv ∈ extra, kv.1 ∈ provNamesExact) : stripProv extra = [] := by
  induction extra with
  | nil => rfl
  | cons kv r ih =>
      rw [stripProv_cons,
        if_neg (fun hn => hn (prov_exact_lower kv.1 (h kv (List.mem_cons_self _ _))))]
      exact ih (fun kv' hkv' => h kv' (List.mem_cons_of_mem _ hkv'))

theorem digestOf_set_date (m : MaildirMessage) (d : Int) :
    digestOf { m with date := d } = digestOf m := rfl

theorem msgidOf_set_date (m : MaildirMessage) (d : Int) :
    msgidOf { m with date := d } = msgidOf m := rfl

theorem mergeHeaders_digest (nm : MaildirMessage)
    (rest : List (Nat × MaildirMessage)) :
    digestOf (mergeHeaders nm rest).1 = digestOf nm := by
  rcases mergeHeaders_headers_ext nm rest with ⟨extra, hex, hprov⟩
  show (stripProv (mergeHeaders nm rest).1.headers, (mergeHeaders nm rest).1.body)
    = (stripProv nm.headers, nm.body)
  rw [hex, mergeHeaders_body, stripProv_append, stripProv_extra extra hprov,
    List.append_nil]

theorem msgidOf_ext (m m' : MaildirMessage) (extra : List (String × String))
    (hh : m'.headers = m.headers ++ extra)
    (hprov : ∀ kv ∈ extra, kv.1 ∈ provNamesExact) : msgidOf m' = msgidOf m := by
  unfold msgidOf getHeader
  rw [hh, List.find?_append]
  have hnone : extra.find?
      (fun h => decide (lowerName h.1 = lowerName "X-GMAIL-MSGID")) = none := by
    rw [List.find?_eq_none]
    intro kv hkv
    simp only [decide_eq_true_eq]
    intro heq
    have h1 := prov_exact_lower kv.1 (hprov kv hkv)
    rw [heq] at h1
    exact absurd h1 (by decide)
  rw [hnone]
  cases m.headers.find? (fun h => decide (lowerName h.1 = lowerName "X-GMAIL-MSGID")) <;> rfl

theorem mergeHeaders_msgid (nm : MaildirMessage)
    (rest : List (Nat × MaildirMessage)) :
    msgidOf (mergeHeaders nm rest).1 = msgidOf nm := by
  rcases mergeHeaders_headers_ext nm rest with ⟨extra, hex, hprov⟩
  exact msgidOf_ext nm (mergeHeaders nm rest).1 extra hex hprov

/-! Key-set preservation through a live pass. -/

theorem keys_setA_nodup {α β : Type} [DecidableEq α]
    (l : List (α × β)) (a : α) (b : β) (h : (l.map Prod.fst).Nodup) :
    ((setA l a b).map Prod.fst).Nodup := by
  by_cases hm : a ∈ l.map Prod.fst
  · rw [keys_setA_of_mem _ _ _ hm]; exact h
  · rw [setA_of_assoc_none _ _ _ (assoc_eq_none_of_not_mem_keys _ _ hm), List.map_append]
    rw [List.nodup_append]
    refine ⟨h, by simp, ?_⟩
    intro x hx hx2
    simp at hx2
    exact hm (hx2 ▸ hx)

theorem eraseFold_keys_sublist (rest : List (Nat × MaildirMessage)) (st : EngineBox) :
    (((rest.foldl (fun s x => eraseA s x.1) st)).map Prod.fst).Sublist
      (st.map Prod.fst) := by
  induction rest generalizing st with
  | nil => exact List.Sublist.refl _
  | cons x r ih =>
      rw [List.foldl_cons]
      exact (ih _).trans (keys_eraseA_sublist _ _)

theorem processSet_nodup (st : EngineBox) (msgs : List (Nat × MaildirMessage))
    (h : (st.map Prod.fst).Nodup) :
    ((processSet false st msgs).1.map Prod.fst).Nodup := by
  unfold processSet
  cases sortByDate msgs with
  | nil => exact h
  | cons sk rest =>
      obtain ⟨k0, m0⟩ := sk
      simp only [Bool.false_eq_true, if_false]
      by_cases hch : (mergeHeaders
          { m0 with date := ((rest.getLast?).map (fun e => e.2.date)).getD m0.date }
          rest).2
      · simp only [hch, if_true]
        exact List.Nodup.sublist (eraseFold_keys_sublist _ _) (keys_setA_nodup _ _ _ h)
      · simp only [hch, Bool.false_eq_true, if_false]
        exact List.Nodup.sublist (eraseFold_keys_sublist _ _) h

/-! Behaviour of one identical set's live processing, entry by entry. -/

theorem processSet_survivor (st : EngineBox) (msgs : List (Nat × MaildirMessage))
    (sk : Nat × MaildirMessage) (rest : List (Nat × MaildirMessage))
    (hs : sortByDate msgs = sk :: rest)
    (hnd : (msgs.map Prod.fst).Nodup)
    (hsk : assoc st sk.1 = some sk.2) :
    ∃ m', assoc (processSet false st msgs).1 sk.1 = some m' ∧
      digestOf m' = digestOf sk.2 ∧ msgidOf m' = msgidOf sk.2 := by
  have hsortnd : ((sk :: rest).map Prod.fst).Nodup := by
    have hp := (sortByDate_perm msgs).map Prod.fst
    rw [hs] at hp
    exact hp.nodup_iff.mpr hnd
  have hskrest : ∀ e ∈ rest, e.1 ≠ sk.1 := by
    intro e he heq
    have h1 : sk.1 ∉ rest.map Prod.fst := by
      rw [List.map_cons] at hsortnd
      exact (List.nodup_cons.mp hsortnd).1
    exact h1 (heq ▸ List.mem_map.mpr ⟨e, he, rfl⟩)
  unfold processSet
  rw [hs]
  obtain ⟨k0, m0⟩ := sk
  simp only [Bool.false_eq_true, if_false]
  by_cases hch : (mergeHeaders
      { m0 with date := ((rest.getLast?).map (fun e => e.2.date)).getD m0.date } rest).2
  · simp only [hch, if_true]
    refine ⟨(mergeHeaders
      { m0 with date := ((rest.getLast?).map (fun e => e.2.date)).getD m0.date } rest).1,
      ?_, ?_, ?_⟩
    · rw [eraseFold_frame _ _ _ hskrest, assoc_setA_self]
    · rw [mergeHeaders_digest, digestOf_set_date]
    · rw [mergeHeaders_msgid, msgidOf_set_date]
  · simp only [hch, Bool.false_eq_true, if_false]
    refine ⟨m0, ?_, rfl, rfl⟩
    rw [eraseFold_frame _ _ _ hskrest]
    exact hsk

theorem processSet_casualty (st : EngineBox) (msgs : List (Nat × MaildirMessage))
    (sk : Nat × MaildirMessage) (rest : List (Nat × MaildirMessage))
    (hs : sortByDate msgs = sk :: rest) :
    ∀ e ∈ rest, assoc (processSet false st msgs).1 e.1 = none := by
  intro e he
  unfold processSet
  rw [hs]
  obtain ⟨k0, m0⟩ := sk
  simp only [Bool.false_eq_true, if_false]
  by_cases hch : (mergeHeaders
      { m0 with date := ((rest.getLast?).map (fun e => e.2.date)).getD m0.date } rest).2
  · simp only [hch, if_true]
    exact eraseFold_none _ _ e he
  · simp only [hch, Bool.false_eq_true, if_false]
    exact eraseFold_none _ _ e he

theorem processSet_origin (st : EngineBox) (msgs : List (Nat × MaildirMessage))
    (hall : ∀ e ∈ msgs, assoc st e.1 = some e.2)
    (hnd : (msgs.map Prod.fst).Nodup) :
    ∀ k m', assoc (processSet false st msgs).1 k = some m' →
      ∃ m, assoc st k = some m ∧ digestOf m' = digestOf m ∧ msgidOf m' = msgidOf m := by
  intro k m' hk
  cases hs : sortByDate msgs with
  | nil =>
      unfold processSet at hk
      rw [hs] at hk
      exact ⟨m', hk, rfl, rfl⟩
  | cons sk rest =>
      by_cases hk0 : k = sk.1
      · subst hk0
        have hskmem : sk ∈ msgs := (sortByDate_perm msgs).subset (hs ▸ List.mem_cons_self _ _)
        have hskm : assoc st sk.1 = some sk.2 := hall sk hskmem
        rcases processSet_survivor st msgs sk rest hs hnd hskm with ⟨m'', hm'', hd, hmi⟩
        rw [hk] at hm''
        cases hm''
        exact ⟨sk.2, hskm, hd, hmi⟩
      · by_cases hkr : ∃ e ∈ rest, e.1 = k
        · rcases hkr with ⟨e, he, hek⟩
          have hnone := processSet_casualty st msgs sk rest hs e he
          rw [hek] at hnone
          rw [hnone] at hk
          cases hk
        · have hframe : ∀ e ∈ msgs, e.1 ≠ k := by
            intro e he hek
            have hsorted : e ∈ sk :: rest := hs ▸ (sortByDate_perm msgs).symm.subset he
            rcases List.mem_cons.mp hsorted with h1 | h2
            · exact hk0 (by rw [← hek, h1])
            · exact hkr ⟨e, h2, hek⟩
          rw [processSet_frame st msgs k hframe] at hk
          exact ⟨m', hk, rfl, rfl⟩

theorem mem_flatten_keys
    (dgs : List ((List (String × String) × String) × List (Nat × MaildirMessage)))
    (dg' : (List (String × String) × String) × List (Nat × MaildirMessage))
    (hdg' : dg' ∈ dgs) (e : Nat × MaildirMessage) (he : e ∈ dg'.2) :
    e.1 ∈ (((dgs.map (fun g => g.2)).flatten)).map Prod.fst :=
  List.mem_map.mpr ⟨e, List.mem_flatten.mpr ⟨dg'.2, List.mem_map.mpr ⟨dg', hdg', rfl⟩, he⟩, rfl⟩

theorem two_le_length_of_mem_ne {α : Type} {l : List α} {a b : α}
    (ha : a ∈ l) (hb : b ∈ l) (hne : a ≠ b) : 2 ≤ l.length := by
  cases l with
  | nil => simp at ha
  | cons x r =>
      cases r with
      | nil =>
          rcases List.mem_singleton.mp ha with rfl
          rcases List.mem_singleton.mp hb with rfl
          exact absurd rfl hne
      | cons y t => simp

theorem inner_nodup
    (dgs : List ((List (String × String) × String) × List (Nat × MaildirMessage)))
    (acc : EngineBox × List String × List Act)
    (hnd : (acc.1.map Prod.fst).Nodup) :
    (((dgs.foldl (dedupDigestGroup false) acc).1).map Prod.fst).Nodup := by
  induction dgs generalizing acc with
  | nil => exact hnd
  | cons dg rest ih =>
      rw [List.foldl_cons]
      apply ih
      unfold dedupDigestGroup
      by_cases hlen : dg.2.length < 2
      · rw [if_pos hlen]; exact hnd
      · rw [if_neg hlen]; exact processSet_nodup _ _ hnd

theorem inner_origin
    (dgs : List ((List (String × String) × String) × List (Nat × MaildirMessage)))
    (acc : EngineBox × List String × List Act)
    (hmatch : ∀ dg ∈ dgs, ∀ e ∈ dg.2, assoc acc.1 e.1 = some e.2)
    (hmk : ((((dgs.map (fun g => g.2)).flatten)).map Prod.fst).Nodup)
    (hdgnd : ∀ dg ∈ dgs, (dg.2.map Prod.fst).Nodup) :
    ∀ k m', assoc ((dgs.foldl (dedupDigestGroup false) acc).1) k = some m' →
      ∃ m, assoc acc.1 k = some m ∧ digestOf m' = digestOf m ∧ msgidOf m' = msgidOf m := by
  induction dgs generalizing acc with
  | nil =>
      intro k m' hk
      exact ⟨m', hk, rfl, rfl⟩
  | cons dg rest ih =>
      intro k m' hk
      rw [List.foldl_cons] at hk
      rw [show (((dg :: rest).map (fun g => g.2)).flatten).map Prod.fst
          = dg.2.map Prod.fst ++ (((rest.map (fun g => g.2)).flatten)).map Prod.fst by
        simp] at hmk
      have hmk' := List.nodup_append.mp hmk
      have hstep : ∀ k2 m2, assoc (dedupDigestGroup false acc dg).1 k2 = some m2 →
          ∃ m, assoc acc.1 k2 = some m ∧ digestOf m2 = digestOf m ∧
            msgidOf m2 = msgidOf m := by
        intro k2 m2 hk2
        unfold dedupDigestGroup at hk2
        by_cases hlen : dg.2.length < 2
        · rw [if_pos hlen] at hk2; exact ⟨m2, hk2, rfl, rfl⟩
        · rw [if_neg hlen] at hk2
          exact processSet_origin acc.1 dg.2 (hmatch dg (List.mem_cons_self _ _))
            (hdgnd dg (List.mem_cons_self _ _)) k2 m2 hk2
      have hframe : ∀ dg' ∈ rest, ∀ e ∈ dg'.2,
          assoc (dedupDigestGroup false acc dg).1 e.1 = some e.2 := by
        intro dg' hdg' e he
        have hne : ∀ x ∈ dg.2, x.1 ≠ e.1 := by
          intro x hx hxe
          exact hmk'.2.2 (List.mem_map.mpr ⟨x, hx, rfl⟩)
            (hxe ▸ mem_flatten_keys rest dg' hdg' e he)
        unfold dedupDigestGroup
        by_cases hlen : dg.2.length < 2
        · rw [if_pos hlen]
          exact hmatch dg' (List.mem_cons_of_mem _ hdg') e he
        · rw [if_neg hlen]
          show assoc (processSet false acc.1 dg.2).1 e.1 = some e.2
          rw [processSet_frame acc.1 dg.2 e.1 hne]
          exact hmatch dg' (List.mem_cons_of_mem _ hdg') e he
      rcases ih _ hframe hmk'.2.1 (fun dg' hdg' => hdgnd dg' (List.mem_cons_of_mem _ hdg'))
        k m' hk with ⟨m2, hm2, hd2, hi2⟩
      rcases hstep k m2 hm2 with ⟨m3, hm3, hd3, hi3⟩
      exact ⟨m3, hm3, hd2.trans hd3, hi2.trans hi3⟩

theorem inner_at_most_one
    (dgs : List ((List (String × String) × String) × List (Nat × MaildirMessage)))
    (acc : EngineBox × List String × List Act)
    (hmatch : ∀ dg ∈ dgs, ∀ e ∈ dg.2, assoc acc.1 e.1 = some e.2)
    (hmk : ((((dgs.map (fun g => g.2)).flatten)).map Prod.fst).Nodup) :
    ∀ dg ∈ dgs, 2 ≤ dg.2.length →
      ∀ e1 ∈ dg.2, ∀ e2 ∈ dg.2, e1.1 ≠ e2.1 →
      ¬((assoc ((dgs.foldl (dedupDigestGroup false) acc).1) e1.1).isSome
        ∧ (assoc ((dgs.foldl (dedupDigestGroup false) acc).1) e2.1).isSome) := by
  induction dgs generalizing acc with
  | nil =>
      intro dg hdg
      simp at hdg
  | cons dg0 rest ih =>
      intro dg hdg hlen e1 he1 e2 he2 hne hsome
      rw [List.foldl_cons] at hsome
      rw [show (((dg0 :: rest).map (fun g => g.2)).flatten).map Prod.fst
          = dg0.2.map Prod.fst ++ (((rest.map (fun g => g.2)).flatten)).map Prod.fst by
        simp] at hmk
      have hmk' := List.nodup_append.mp hmk
      have hframe : ∀ dg' ∈ rest, ∀ e ∈ dg'.2,
          assoc (dedupDigestGroup false acc dg0).1 e.1 = some e.2 := by
        intro dg' hdg' e he
        have hne2 : ∀ x ∈ dg0.2, x.1 ≠ e.1 := by
          intro x hx hxe
          exact hmk'.2.2 (List.mem_map.mpr ⟨x, hx, rfl⟩)
            (hxe ▸ mem_flatten_keys rest dg' hdg' e he)
        unfold dedupDigestGroup
        by_cases hl : dg0.2.length < 2
        · rw [if_pos hl]
          exact hmatch dg' (List.mem_cons_of_mem _ hdg') e he
        · rw [if_neg hl]
          show assoc (processSet false acc.1 dg0.2).1 e.1 = some e.2
          rw [processSet_frame acc.1 dg0.2 e.1 hne2]
          exact hmatch dg' (List.mem_cons_of_mem _ hdg') e he
      rcases List.mem_cons.mp hdg with hdg0 | hdgr
      · subst hdg0
        -- entries of this group's keys are frozen by the remaining groups
        have hfr : ∀ k, k ∈ dg.2.map Prod.fst →
            assoc ((rest.foldl (dedupDigestGroup false)
              (dedupDigestGroup false acc dg)).1) k
              = assoc (dedupDigestGroup false acc dg).1 k := by
          intro k hkmem
          apply inner_state_frame
          intro dg' hdg' e he hek
          exact hmk'.2.2 hkmem (hek ▸ mem_flatten_keys rest dg' hdg' e he)
        rw [hfr e1.1 (List.mem_map.mpr ⟨e1, he1, rfl⟩),
          hfr e2.1 (List.mem_map.mpr ⟨e2, he2, rfl⟩)] at hsome
        have hnotlt : ¬dg.2.length < 2 := by omega
        rw [show dedupDigestGroup false acc dg
            = (((processSet false acc.1 dg.2).1, acc.2.1 ++ (processSet false acc.1 dg.2).2.1,
               acc.2.2 ++ (processSet false acc.1 dg.2).2.2)) from by
          unfold dedupDigestGroup
          rw [if_neg hnotlt]] at hsome
        obtain ⟨sk, tail, hs⟩ : ∃ sk tail, sortByDate dg.2 = sk :: tail := by
          cases hs0 : sortByDate dg.2 with
          | nil =>
              have hl0 := sortByDate_length dg.2
              rw [hs0] at hl0
              simp only [List.length_nil] at hl0
              omega
          | cons a b => exact ⟨a, b, rfl⟩
        have hmem1 : e1 ∈ sk :: tail := hs ▸ (sortByDate_perm dg.2).symm.subset he1
        have hmem2 : e2 ∈ sk :: tail := hs ▸ (sortByDate_perm dg.2).symm.subset he2
        rcases List.mem_cons.mp hmem1 with h1a | h1b
        · rcases List.mem_cons.mp hmem2 with h2a | h2b
          · exact hne (by rw [h1a, h2a])
          · have := processSet_casualty acc.1 dg.2 sk tail hs e2 h2b
            rw [this] at hsome
            simp at hsome
        · have := processSet_casualty acc.1 dg.2 sk tail hs e1 h1b
          rw [this] at hsome
          simp at hsome
      · exact ih _ hframe hmk'.2.1 dg hdgr hlen e1 he1 e2 he2 hne hsome

theorem dedupGroup_frame (acc : EngineBox × List String × List Act)
    (g : String × List Nat) (k : Nat) (hk : k ∉ g.2) :
    assoc (dedupGroup false acc g).1 k = assoc acc.1 k := by
  unfold dedupGroup
  by_cases hlen : g.2.length < 2
  · rw [if_pos hlen]
  · rw [if_neg hlen]
    apply inner_state_frame
    intro dg hdg e he hek
    exact hk (hek ▸ (fetchDigestGroups_mem acc.1 g.2 dg hdg e he).1)

theorem outer_state_frame (gs : List (String × List Nat))
    (acc : EngineBox × List String × List Act) (k : Nat)
    (hk : ∀ g ∈ gs, k ∉ g.2) :
    assoc ((gs.foldl (dedupGroup false) acc).1) k = assoc acc.1 k := by
  induction gs generalizing acc with
  | nil => rfl
  | cons g rest ih =>
      rw [List.foldl_cons, ih _ (fun g' hg' => hk g' (List.mem_cons_of_mem _ hg')),
        dedupGroup_frame acc g k (hk g (List.mem_cons_self _ _))]

/-- Invariant of the live pass over the identifier groups: every surviving
entry descends (same digest, same identifier) from an original entry, keys
stay distinct, and within every already-processed identifier group no two
surviving entries share a digest. -/
theorem outer_dedup_props (mbox : EngineBox) :
    ∀ (gs : List (String × List Nat)) (acc : EngineBox × List String × List Act),
    (∀ k ∈ ((gs.map (fun x => x.2)).flatten), assoc acc.1 k = assoc mbox k) →
    (∀ k m', assoc acc.1 k = some m' → ∃ m, assoc mbox k = some m ∧
      digestOf m' = digestOf m ∧ msgidOf m' = msgidOf m) →
    (acc.1.map Prod.fst).Nodup →
    (((gs.map (fun x => x.2)).flatten)).Nodup →
    (∀ g ∈ gs, ∀ k ∈ g.2, ∃ m, assoc mbox k = some m ∧ msgidOf m = some g.1) →
    ((∀ k m', assoc ((gs.foldl (dedupGroup false) acc).1) k = some m' →
       ∃ m, assoc mbox k = some m ∧ digestOf m' = digestOf m ∧ msgidOf m' = msgidOf m) ∧
     (((gs.foldl (dedupGroup false) acc).1).map Prod.fst).Nodup ∧
     (∀ g ∈ gs, ∀ k1 ∈ g.2, ∀ k2 ∈ g.2, k1 ≠ k2 → ∀ m1' m2',
       assoc ((gs.foldl (dedupGroup false) acc).1) k1 = some m1' →
       assoc ((gs.foldl (dedupGroup false) acc).1) k2 = some m2' →
       digestOf m1' ≠ digestOf m2')) := by
  intro gs
  induction gs with
  | nil =>
      intro acc hagree horigin hnd hfnd hgood
      refine ⟨horigin, hnd, ?_⟩
      intro g hg
      simp at hg
  | cons g gs' ih =>
      intro acc hagree horigin hnd hfnd hgood
      rw [List.foldl_cons]
      rw [show ((g :: gs').map (fun x => x.2)).flatten
          = g.2 ++ ((gs'.map (fun x => x.2)).flatten) from by simp] at hagree hfnd
      have hfnd' := List.nodup_append.mp hfnd
      have hentry : ∀ k ∈ g.2, ∃ m, assoc acc.1 k = some m ∧ msgidOf m = some g.1 := by
        intro k hk
        rcases hgood g (List.mem_cons_self _ _) k hk with ⟨m, hm, hmid⟩
        exact ⟨m, by rw [hagree k (List.mem_append_left _ hk)]; exact hm, hmid⟩
      have hstep_origin : ∀ k m', assoc (dedupGroup false acc g).1 k = some m' →
          ∃ m, assoc acc.1 k = some m ∧ digestOf m' = digestOf m ∧
            msgidOf m' = msgidOf m := by
        unfold dedupGroup
        by_cases hlen : g.2.length < 2
        · rw [if_pos hlen]
          intro k m' hk
          exact ⟨m', hk, rfl, rfl⟩
        · rw [if_neg hlen]
          apply inner_origin
          · intro dg hdg e he
            exact (fetchDigestGroups_mem acc.1 g.2 dg hdg e he).2
          · exact fetchDG_member_keys_nodup acc.1 g.2 hfnd'.1
          · intro dg hdg
            exact fetchDG_dg_keys_nodup acc.1 g.2 dg hfnd'.1 hdg
      have hstep_nodup : ((dedupGroup false acc g).1.map Prod.fst).Nodup := by
        unfold dedupGroup
        by_cases hlen : g.2.length < 2
        · rw [if_pos hlen]; exact hnd
        · rw [if_neg hlen]; exact inner_nodup _ _ hnd
      have hstep_dist : ∀ k1 ∈ g.2, ∀ k2 ∈ g.2, k1 ≠ k2 → ∀ m1' m2',
          assoc (dedupGroup false acc g).1 k1 = some m1' →
          assoc (dedupGroup false acc g).1 k2 = some m2' →
          digestOf m1' ≠ digestOf m2' := by
        intro k1 hk1 k2 hk2 hkne m1' m2' hm1' hm2' hdeq
        by_cases hlen : g.2.length < 2
        · have := two_le_length_of_mem_ne hk1 hk2 hkne
          omega
        · have hgeq : dedupGroup false acc g
              = (fetchDigestGroups acc.1 g.2).foldl (dedupDigestGroup false) acc := by
            unfold dedupGroup
            rw [if_neg hlen]
          rw [hgeq] at hm1' hm2'
          rcases hentry k1 hk1 with ⟨m1, hm1, hmid1⟩
          rcases hentry k2 hk2 with ⟨m2, hm2, hmid2⟩
          have hmatch : ∀ dg ∈ fetchDigestGroups acc.1 g.2, ∀ e ∈ dg.2,
              assoc acc.1 e.1 = some e.2 :=
            fun dg hdg e he => (fetchDigestGroups_mem acc.1 g.2 dg hdg e he).2
          have hmknd := fetchDG_member_keys_nodup acc.1 g.2 hfnd'.1
          have hdgnd : ∀ dg ∈ fetchDigestGroups acc.1 g.2, (dg.2.map Prod.fst).Nodup :=
            fun dg hdg => fetchDG_dg_keys_nodup acc.1 g.2 dg hfnd'.1 hdg
          rcases inner_origin _ acc hmatch hmknd hdgnd k1 m1' hm1' with ⟨m1x, hm1x, hd1, h_1⟩
          rcases inner_origin _ acc hmatch hmknd hdgnd k2 m2' hm2' with ⟨m2x, hm2x, hd2, h_2⟩
          rw [hm1] at hm1x
          cases hm1x
          rw [hm2] at hm2x
          cases hm2x
          have hdmm : digestOf m1 = digestOf m2 := by
            rw [← hd1, ← hd2]
            exact hdeq
          rcases fetchDG_complete acc.1 g.2 k1 m1 hk1 hm1 with ⟨l1, hl1, hkl1⟩
          rcases fetchDG_complete acc.1 g.2 k2 m2 hk2 hm2 with ⟨l2, hl2, hkl2⟩
          rw [hdmm] at hl1
          have hfstnd := fetchDG_fst_nodup acc.1 g.2
          have heql : l1 = l2 := by
            have ha1 := assoc_some_of_mem_nodup hfstnd hl1
            have ha2 := assoc_some_of_mem_nodup hfstnd hl2
            rw [ha1] at ha2
            cases ha2
            rfl
          subst heql
          have hlen2 : 2 ≤ l1.length :=
            two_le_length_of_mem_ne hkl1 hkl2 (fun he => hkne (congrArg Prod.fst he))
          apply inner_at_most_one _ acc hmatch hmknd (digestOf m2, l1) hl1 hlen2
            (k1, m1) hkl1 (k2, m2) hkl2 hkne
          constructor
          · have h1s : (assoc ((fetchDigestGroups acc.1 g.2).foldl
                (dedupDigestGroup false) acc).1 k1).isSome = true := by
              rw [hm1']; rfl
            exact h1s
          · have h2s : (assoc ((fetchDigestGroups acc.1 g.2).foldl
                (dedupDigestGroup false) acc).1 k2).isSome = true := by
              rw [hm2']; rfl
            exact h2s
      have hagree' : ∀ k ∈ (gs'.map (fun x => x.2)).flatten,
          assoc (dedupGroup false acc g).1 k = assoc mbox k := by
        intro k hkmem
        have hknotg : k ∉ g.2 := fun hkg => hfnd'.2.2 hkg hkmem
        rw [dedupGroup_frame acc g k hknotg]
        exact hagree k (List.mem_append_right _ hkmem)
      have horigin' : ∀ k m', assoc (dedupGroup false acc g).1 k = some m' →
          ∃ m, assoc mbox k = some m ∧ digestOf m' = digestOf m ∧
            msgidOf m' = msgidOf m := by
        intro k m' hk
        rcases hstep_origin k m' hk with ⟨m2, hm2, hd2, hi2⟩
        rcases horigin k m2 hm2 with ⟨m3, hm3, hd3, hi3⟩
        exact ⟨m3, hm3, hd2.trans hd3, hi2.trans hi3⟩
      rcases ih (dedupGroup false acc g) hagree' horigin' hstep_nodup hfnd'.2.1
        (fun g' hg' => hgood g' (List.mem_cons_of_mem _ hg'))
        with ⟨hfin_origin, hfin_nodup, hfin_dist⟩
      refine ⟨hfin_origin, hfin_nodup, ?_⟩
      intro g0 hg0 k1 hk1 k2 hk2 hkne m1' m2' hm1' hm2'
      rcases List.mem_cons.mp hg0 with hg0a | hg0b
      · subst hg0a
        have hfr : ∀ k, k ∈ g0.2 →
            assoc ((gs'.foldl (dedupGroup false) (dedupGroup false acc g0)).1) k
              = assoc (dedupGroup false acc g0).1 k := by
          intro k hkg
          apply outer_state_frame
          intro g' hg' hkg'
          exact hfnd'.2.2 hkg
            (List.mem_flatten.mpr ⟨g'.2, List.mem_map.mpr ⟨g', hg', rfl⟩, hkg'⟩)
        rw [hfr k1 hk1] at hm1'
        rw [hfr k2 hk2] at hm2'
        exact hstep_dist k1 hk1 k2 hk2 hkne m1' m2' hm1' hm2'
      · exact hfin_dist g0 hg0b k1 hk1 k2 hk2 hkne m1' m2' hm1' hm2'

/-- After a live pass, keys are still distinct and no two surviving
entries share both their identifier and their digest. -/
theorem dedup_post (mbox : EngineBox) (hnd : (mbox.map Prod.fst).Nodup) :
    (((maildir_dedup mbox false).1).map Prod.fst).Nodup ∧
    (∀ k1 k2 m1 m2 mid, k1 ≠ k2 →
      assoc (maildir_dedup mbox false).1 k1 = some m1 →
      assoc (maildir_dedup mbox false).1 k2 = some m2 →
      msgidOf m1 = some mid → msgidOf m2 = some mid →
      digestOf m1 ≠ digestOf m2) := by
  simp only [maildir_dedup]
  have hprops := outer_dedup_props mbox (groupByMsgid mbox) (mbox, [], [])
    (fun k _ => rfl)
    (fun k m' hk => ⟨m', hk, rfl, rfl⟩)
    hnd
    (groupByMsgid_join_nodup mbox hnd)
    (by
      intro g hg k hk
      rcases groupByMsgid_mem mbox g hg k hk with ⟨m, hm, hmid⟩
      exact ⟨m, assoc_some_of_mem_nodup hnd hm, hmid⟩)
  refine ⟨hprops.2.1, ?_⟩
  intro k1 k2 m1 m2 mid hkne h1 h2 hmid1 hmid2
  rcases hprops.1 k1 m1 h1 with ⟨mo1, hmo1, hdo1, hio1⟩
  rcases hprops.1 k2 m2 h2 with ⟨mo2, hmo2, hdo2, hio2⟩
  have hmm1 : (k1, mo1) ∈ mbox := mem_of_assoc_some hmo1
  have hmm2 : (k2, mo2) ∈ mbox := mem_of_assoc_some hmo2
  have hmidm1 : msgidOf mo1 = some mid := by rw [← hio1]; exact hmid1
  have hmidm2 : msgidOf mo2 = some mid := by rw [← hio2]; exact hmid2
  rcases groupByMsgid_complete mbox k1 mo1 mid hmm1 hmidm1 with ⟨ks1, hks1, hkk1⟩
  rcases groupByMsgid_complete mbox k2 mo2 mid hmm2 hmidm2 with ⟨ks2, hks2, hkk2⟩
  have hksq : ks1 = ks2 := by
    have hfstnd := groupByMsgid_fst_nodup mbox
    have ha1 := assoc_some_of_mem_nodup hfstnd hks1
    have ha2 := assoc_some_of_mem_nodup hfstnd hks2
    rw [ha1] at ha2
    cases ha2
    rfl
  subst hksq
  exact hprops.2.2 (mid, ks1) hks1 k1 hkk1 k2 hkk2 hkne m1 m2 h1 h2

theorem foldl_const {γ δ : Type} (l : List δ) (f : γ → δ → γ) (a : γ)
    (h : ∀ x ∈ l, f a x = a) : l.foldl f a = a := by
  induction l with
  | nil => rfl
  | cons x r ih =>
      rw [List.foldl_cons, h x (List.mem_cons_self _ _)]
      exact ih (fun y hy => h y (List.mem_cons_of_mem _ hy))

/-- A mailbox in which no identifier group holds two entries with one
digest is a fixed point of the live pass: no report, no mutation. -/
theorem dedup_noop (st : EngineBox)
    (hnd : (st.map Prod.fst).Nodup)
    (hdist : ∀ k1 k2 m1 m2 mid, k1 ≠ k2 → assoc st k1 = some m1 →
      assoc st k2 = some m2 → msgidOf m1 = some mid → msgidOf m2 = some mid →
      digestOf m1 ≠ digestOf m2) :
    maildir_dedup st false = (st, [], []) := by
  unfold maildir_dedup
  apply foldl_const
  intro g hg
  unfold dedupGroup
  by_cases hlen : g.2.length < 2
  · rw [if_pos hlen]
  · rw [if_neg hlen]
    apply foldl_const
    intro dg hdg
    have hlt : dg.2.length < 2 := by
      by_contra hge
      push_neg at hge
      obtain ⟨e1, e2, t, hdg2⟩ : ∃ e1 e2 t, dg.2 = e1 :: e2 :: t := by
        cases h2 : dg.2 with
        | nil => rw [h2] at hge; simp at hge
        | cons a r =>
            cases hr : r with
            | nil => rw [h2, hr] at hge; simp at hge
            | cons b t => exact ⟨a, b, t, rfl⟩
      have hg2nd : g.2.Nodup := by
        have hj := groupByMsgid_join_nodup st hnd
        exact List.Nodup.sublist
          (List.sublist_flatten_of_mem (List.mem_map.mpr ⟨g, hg, rfl⟩)) hj
      have hdgkeys := fetchDG_dg_keys_nodup st g.2 dg hg2nd hdg
      have he1 : e1 ∈ dg.2 := by rw [hdg2]; exact List.mem_cons_self _ _
      have he2 : e2 ∈ dg.2 := by
        rw [hdg2]
        exact List.mem_cons_of_mem _ (List.mem_cons_self _ _)
      have hkne : e1.1 ≠ e2.1 := by
        rw [hdg2, List.map_cons, List.map_cons] at hdgkeys
        have hni := (List.nodup_cons.mp hdgkeys).1
        intro he
        exact hni (by rw [he]; exact List.mem_cons_self _ _)
      have hmem1 := fetchDigestGroups_mem st g.2 dg hdg e1 he1
      have hmem2 := fetchDigestGroups_mem st g.2 dg hdg e2 he2
      have hd1 := fetchDigestGroups_digest st g.2 dg hdg e1 he1
      have hd2 := fetchDigestGroups_digest st g.2 dg hdg e2 he2
      have hmid1 : msgidOf e1.2 = some g.1 := by
        rcases groupByMsgid_mem st g hg e1.1 hmem1.1 with ⟨m, hm, hmid⟩
        have hq := assoc_some_of_mem_nodup hnd hm
        rw [hmem1.2] at hq
        cases hq
        exact hmid
      have hmid2 : msgidOf e2.2 = some g.1 := by
        rcases groupByMsgid_mem st g hg e2.1 hmem2.1 with ⟨m, hm, hmid⟩
        have hq := assoc_some_of_mem_nodup hnd hm
        rw [hmem2.2] at hq
        cases hq
        exact hmid
      exact hdist e1.1 e2.1 e1.2 e2.2 g.1 hkne hmem1.2 hmem2.2 hmid1 hmid2
        (hd1.trans hd2.symm)
    unfold dedupDigestGroup
    rw [if_pos hlt]

/-- C8: running the dedup pass twice in succession is idempotent — the
second live run performs no replace, no remove, no flush, and emits no
report line, because after the first run no identifier group has more than
one member per content digest. -/
theorem c8_idempotent (mbox : EngineBox) (hnd : (mbox.map Prod.fst).Nodup) :
    maildir_dedup (maildir_dedup mbox false).1 false
      = ((maildir_dedup mbox false).1, [], []) := by
  rcases dedup_post mbox hnd with ⟨hnd1, hdist⟩
  exact dedup_noop _ hnd1 hdist

def c8box : EngineBox := [(5, c2w1), (6, c2w2), (7, c2w3), (8, c3m1)]

theorem c8_witness :
    ((c8box.map Prod.fst).Nodup) ∧
    maildir_dedup (maildir_dedup c8box false).1 false
      = ((maildir_dedup c8box false).1, [], []) :=
  ⟨by decide, c8_idempotent c8box (by decide)⟩
